import Mathlib

/-!
Shallow embedding of the RaktaVruksha family-tree core
(`src/utils/treeUtils.ts`: `calculateGenerations` and `buildGraphData`),
together with theorems settling the specification claims.

Modelling conventions:
* A JavaScript `Map<string, T>` is an association list `List (String × T)`
  with first-insertion key order; `mapSet` overwrites in place and appends
  new keys at the end, matching `Map.set`.
* The solver stores `number` values where `NaN` marks "unknown"; we store
  `Option Int` (`none` = NaN / absent).  Every guarded read in the source
  goes through `isNaN` (and `isNaN undefined = true`), so `none` faithfully
  covers both the NaN sentinel and a missing key.
* `Math.round(sum / count)` on integer `sum` and positive integer `count`
  is exact in JS doubles for the cases reachable here; `Math.round x`
  equals `⌊x + 1/2⌋` (ties toward +∞), embedded as `jsRound`.
* JS string comparison (`<` and the default `Array.sort` comparator) is
  code-unit lexicographic; Lean's `String` order is code-point
  lexicographic, which agrees on all BMP strings.
-/

namespace RaktaVruksha

/-- Gender of a person record (`'male' | 'female'` in `types.ts`). -/
inductive Gender where
  | male
  | female
deriving DecidableEq, Repr

/-- A person record, from `Person` in `types.ts`.  The optional `parents`,
`spouses` and `children` arrays are embedded as lists, with `[]` for an
absent array: every use in the source guards on
`arr && arr.length > 0` or `arr.includes`, under which `undefined` and
`[]` behave identically. -/
structure Person where
  id : String
  first_name : String := ""
  last_name : String := ""
  alive : Bool := true
  gender : Gender := .male
  parents : List String := []
  spouses : List String := []
  children : List String := []
  birth_family_id : String := ""
  current_family_id : String := ""
deriving DecidableEq, Repr

/-- Lexicographic comparison of char lists, the order underlying the
JS string `<` operator and the default `Array.sort` comparator
(code-unit-wise; identical to code-point order on BMP strings). -/
def charListLt : List Char → List Char → Bool
  | _, [] => false
  | [], _ :: _ => true
  | a :: as, b :: bs =>
    if a.toNat < b.toNat then true
    else if b.toNat < a.toNat then false
    else charListLt as bs

/-- The JS `<` operator on strings. -/
def jsStrLt (a b : String) : Bool := charListLt a.data b.data

/-- `a ≤ b` in the JS string order. -/
def jsStrLe (a b : String) : Bool := !jsStrLt b a

/-- `Map.get`: first entry with the given key. -/
def mapGet {α : Type} : List (String × α) → String → Option α
  | [], _ => none
  | e :: rest, k => if e.1 = k then some e.2 else mapGet rest k

/-- `Map.set`: overwrite the entry in place if the key exists, else append. -/
def mapSet {α : Type} : List (String × α) → String → α → List (String × α)
  | [], k, v => [(k, v)]
  | e :: rest, k, v => if e.1 = k then (k, v) :: rest else e :: mapSet rest k v

/-- The solver's working table: person id → generation, `none` = NaN. -/
abbrev GenMap : Type := List (String × Option Int)

/-- Read a generation value; an absent key and a stored NaN are both
`none` (the source always filters reads through `isNaN`). -/
def getNum (m : GenMap) (k : String) : Option Int :=
  (mapGet m k).join

/-- `Math.round (s / c)` for integer `s` and positive integer `c`:
round to nearest, ties toward positive infinity, i.e. `⌊s/c + 1/2⌋`. -/
def jsRound (s : Int) (c : Nat) : Int :=
  (2 * s + (c : Int)).fdiv (2 * (c : Int))

/-- Iteration cap of the relaxation loop (`MAX_ITERATIONS`). -/
def MAX_ITERATIONS : Nat := 200

/-- Working state while one person is processed: the generation table,
the person's `currentGen` local, and the `changed` flag. -/
abbrev RuleState : Type := GenMap × Option Int × Bool

/-- One step of Rule 1 (spouse equality) for a single spouse id,
lines 66–78 of the source: if the spouse resolves to a known person with
a known generation different from `currentGen` (or `currentGen` is
unknown), adopt the spouse's generation. -/
def rule1Step (peopleIds : List String) (pid : String) (st : RuleState)
    (spouseId : String) : RuleState :=
  if spouseId ∈ peopleIds then
    match getNum st.1 spouseId with
    | some sg =>
      if st.2.1 ≠ some sg then (mapSet st.1 pid (some sg), some sg, true) else st
    | none => st
  else st

/-- Rule 1 over the whole `spouses` array (guarded on non-emptiness as in
the source; the guard is redundant for the fold but kept for fidelity). -/
def rule1 (peopleIds : List String) (pid : String) (spouses : List String)
    (st : RuleState) : RuleState :=
  if spouses.length > 0 then spouses.foldl (rule1Step peopleIds pid) st else st

/-- The known-parent accumulation of Rule 2 (`parentGenSum`,
`knownParentsCount`), lines 83–91. -/
def parentSum (m : GenMap) (parents : List String) : Int × Nat :=
  parents.foldl
    (fun sc parentId =>
      match getNum m parentId with
      | some g => (sc.1 + g, sc.2 + 1)
      | none => sc)
    (0, 0)

/-- Rule 2 (parents → child), lines 82–101: with at least one known
parent, the implied child generation `round(mean) + 1` is applied when the
current value is unknown or strictly larger. -/
def rule2 (pid : String) (parents : List String) (st : RuleState) : RuleState :=
  if parents.length > 0 then
    let sc := parentSum st.1 parents
    if sc.2 > 0 then
      let impliedChildGen := jsRound sc.1 sc.2 + 1
      match st.2.1 with
      | none => (mapSet st.1 pid (some impliedChildGen), some impliedChildGen, true)
      | some g =>
        if impliedChildGen < g then
          (mapSet st.1 pid (some impliedChildGen), some impliedChildGen, true)
        else st
    else st
  else st

/-- One step of Rule 3 (child → parent) for a single child id,
lines 105–115: a known child implies `childGen - 1`, applied when the
current value is unknown or strictly smaller. -/
def rule3Step (pid : String) (st : RuleState) (childId : String) : RuleState :=
  match getNum st.1 childId with
  | some cgen =>
    let impliedParentGen := cgen - 1
    match st.2.1 with
    | none => (mapSet st.1 pid (some impliedParentGen), some impliedParentGen, true)
    | some g =>
      if impliedParentGen > g then
        (mapSet st.1 pid (some impliedParentGen), some impliedParentGen, true)
      else st
  | none => st

/-- Rule 3 over the whole `children` array, lines 104–116. -/
def rule3 (pid : String) (childIds : List String) (st : RuleState) : RuleState :=
  if childIds.length > 0 then childIds.foldl (rule3Step pid) st else st

/-- Processing of one person inside a relaxation pass (the body of the
`forEach` at lines 61–117): read `currentGen`, then Rules 1, 2, 3 in
order, threading the table and the `changed` flag. -/
def processPerson (peopleIds : List String) (st : GenMap × Bool) (person : Person) :
    GenMap × Bool :=
  let st1 := rule1 peopleIds person.id person.spouses (st.1, getNum st.1 person.id, st.2)
  let st2 := rule2 person.id person.parents st1
  let st3 := rule3 person.id person.children st2
  (st3.1, st3.2.2)

/-- One full pass over all people with a freshly reset `changed` flag. -/
def runPass (peopleIds : List String) (allPeople : List Person) (m : GenMap) :
    GenMap × Bool :=
  allPeople.foldl (processPerson peopleIds) (m, false)

/-- The `while (changed && iteration < MAX_ITERATIONS)` loop: run passes
until a pass reports no change or the fuel is exhausted. -/
def runLoop (peopleIds : List String) (allPeople : List Person) :
    Nat → GenMap → GenMap
  | 0, m => m
  | fuel + 1, m =>
    let p := runPass peopleIds allPeople m
    if p.2 then runLoop peopleIds allPeople fuel p.1 else p.1

/-- Automatic anchor selection (lines 44–48): prefer a person with no
recorded parents and at least one recorded child, else the first person;
`none` exactly when the input is empty. -/
def autoAnchor (allPeople : List Person) : Option String :=
  match allPeople.find? (fun p => p.parents.isEmpty && !p.children.isEmpty) with
  | some p => some p.id
  | none => allPeople.head?.map (·.id)

/-- The seeded anchor: an explicitly supplied id is used when it is truthy
(JS: the empty string is falsy) and resolves to a person; otherwise the
automatic anchor.  Mirrors lines 42–51. -/
def anchorOf (allPeople : List Person) (primePersonId : Option String) : Option String :=
  match primePersonId with
  | some pid =>
    if pid ≠ "" ∧ pid ∈ allPeople.map Person.id then some pid
    else autoAnchor allPeople
  | none => autoAnchor allPeople

/-- The table after initialization (all ids ↦ NaN) and seeding the anchor
to 0, lines 38–51; `none` when the input is empty (early return). -/
def initialMap (allPeople : List Person) (primePersonId : Option String) :
    Option GenMap :=
  let m0 : GenMap := allPeople.foldl (fun m p => mapSet m p.id none) []
  (anchorOf allPeople primePersonId).map (fun aid => mapSet m0 aid (some 0))

/-- The raw (pre-normalization) table after the relaxation loop;
`[]` for empty input. -/
def solveRaw (allPeople : List Person) (primePersonId : Option String) : GenMap :=
  match initialMap allPeople primePersonId with
  | some m1 => runLoop (allPeople.map Person.id) allPeople MAX_ITERATIONS m1
  | none => []

/-- The fold at lines 126–131: minimum of the known generations,
defaulting to 0 when none is known (`Infinity` guard at line 132). -/
def minKnownOr0 (m : GenMap) : Int :=
  (m.foldl
      (fun acc e =>
        match e.2 with
        | some g => some (match acc with | some a => min a g | none => g)
        | none => acc)
      none).getD 0

/-- `primeGenValue` (lines 122–133): the anchor's resolved raw generation
when the explicit anchor id is truthy, present and known; otherwise the
minimum known raw generation (0 if none). -/
def shiftOf (allPeople : List Person) (primePersonId : Option String)
    (m : GenMap) : Int :=
  (match primePersonId with
    | some pid =>
      if pid ≠ "" ∧ pid ∈ allPeople.map Person.id then getNum m pid else none
    | none => none).getD (minKnownOr0 m)

/-- Normalization of one entry (lines 137–143): known values are shifted
by `primeGenValue`, unknown values are forced to 0. -/
def normalizeEntry (shift : Int) : Option Int → Int
  | some g => g - shift
  | none => 0

/-- `calculateGenerations` (lines 29–146): relaxation followed by
normalization.  (The early `return new Map()` for empty input coincides
with normalizing the empty table.) -/
def calculateGenerations (allPeople : List Person)
    (primePersonId : Option String) : List (String × Int) :=
  let mF := solveRaw allPeople primePersonId
  let shift := shiftOf allPeople primePersonId mF
  mF.map (fun e => (e.1, normalizeEntry shift e.2))

/-- A person node of the output graph (`FamilyTreeNode` in `types.ts`). -/
structure FamilyTreeNode where
  id : String
  first_name : String
  last_name : String
  alive : Bool
  gender : Gender
  parents : List String
  spouses : List String
  birth_family_id : String
  current_family_id : String
  generation : Option Int
deriving DecidableEq, Repr

/-- A synthetic marriage node (`MarriageNode` in `types.ts`); its
`generation` is always assigned by `getOrCreateMarriageNode`. -/
structure MarriageNode where
  id : String
  spouses : List String
  generation : Int
deriving DecidableEq, Repr

/-- `GraphNode`: tagged union of person and marriage nodes. -/
inductive GraphNode where
  | person (n : FamilyTreeNode)
  | marriage (n : MarriageNode)
deriving DecidableEq, Repr

/-- The id carried by a graph node. -/
def nodeId : GraphNode → String
  | .person n => n.id
  | .marriage n => n.id

/-- Link kinds of `GraphLink.type`. -/
inductive LinkType where
  | parentChild
  | spouseSpouse
  | marriageChild
  | parentMarriage
deriving DecidableEq, Repr

/-- A typed edge (`GraphLink` in `types.ts`, always built with id
endpoints). -/
structure GraphLink where
  source : String
  target : String
  type : LinkType
deriving DecidableEq, Repr

/-- The result of `buildGraphData`. -/
structure GraphData where
  nodes : List GraphNode
  links : List GraphLink
deriving DecidableEq, Repr

/-- Stable insertion of a string into an ascending list. -/
def insertStr (x : String) : List String → List String
  | [] => [x]
  | y :: ys => if jsStrLe x y then x :: y :: ys else y :: insertStr x ys

/-- `[...arr].sort()` for string arrays: ascending lexicographic sort. -/
def sortStrings (l : List String) : List String :=
  l.foldr insertStr []

/-- The canonical marriage key for an already-sorted parent-id list:
`"marriage-" + sorted.join("-")`. -/
def marriageKey (sorted : List String) : String :=
  "marriage-" ++ String.intercalate "-" sorted

/-- `getOrCreateMarriageNode` (lines 175–218): look the canonical key up
in the call-scoped cache; on a miss infer the marriage generation (first
sorted parent's, else second's, else first matching child's minus one,
else 0), register the node and push it onto the node list. -/
def getOrCreateMarriageNode (allPeople : List Person)
    (generationMap : List (String × Int)) (parentIds : List String)
    (cache : List (String × MarriageNode)) (nodes : List GraphNode) :
    MarriageNode × List (String × MarriageNode) × List GraphNode :=
  let sortedParentIds := sortStrings parentIds
  let key := marriageKey sortedParentIds
  match mapGet cache key with
  | some mn => (mn, cache, nodes)
  | none =>
    let genFromSpouses : Option Int :=
      match sortedParentIds with
      | [] => none
      | [p1] => mapGet generationMap p1
      | p1 :: p2 :: _ => (mapGet generationMap p1).orElse (fun _ => mapGet generationMap p2)
    let genInferred : Option Int :=
      match genFromSpouses with
      | some g => some g
      | none =>
        match sortedParentIds.get? 0, sortedParentIds.get? 1 with
        | some a, some b =>
          match (allPeople.filter
              (fun p => !p.parents.isEmpty && p.parents.contains a
                && p.parents.contains b)).head? with
          | some child => (mapGet generationMap child.id).map (fun g => g - 1)
          | none => none
        | _, _ => none
    let marriageGen := genInferred.getD 0
    let mn : MarriageNode :=
      { id := key, spouses := sortedParentIds, generation := marriageGen }
    (mn, mapSet cache key mn, nodes ++ [GraphNode.marriage mn])

/-- The person node copied from a person record (lines 160–171). -/
def personNodeOf (generationMap : List (String × Int)) (p : Person) :
    FamilyTreeNode :=
  { id := p.id
    first_name := p.first_name
    last_name := p.last_name
    alive := p.alive
    gender := p.gender
    parents := p.parents
    spouses := p.spouses
    birth_family_id := p.birth_family_id
    current_family_id := p.current_family_id
    generation := mapGet generationMap p.id }

/-- Spouse links emitted for one person (lines 221–227): one
`spouse-spouse` link per spouse id that resolves to a known person and is
lexicographically greater than the person's own id. -/
def spouseLinksStep (peopleIds : List String) (pid : String)
    (links : List GraphLink) (spouseId : String) : List GraphLink :=
  if spouseId ∈ peopleIds ∧ jsStrLt pid spouseId then
    links ++ [{ source := pid, target := spouseId, type := .spouseSpouse }]
  else links

/-- The body of the link-building `forEach` (lines 220–246) for one
person, threading the marriage cache, node list and link list. -/
def buildStep (allPeople : List Person) (peopleIds : List String)
    (generationMap : List (String × Int))
    (acc : List (String × MarriageNode) × List GraphNode × List GraphLink)
    (person : Person) :
    List (String × MarriageNode) × List GraphNode × List GraphLink :=
  let cache := acc.1
  let nodes := acc.2.1
  let links0 := acc.2.2
  let links :=
    if person.spouses.length > 0 then
      person.spouses.foldl (spouseLinksStep peopleIds person.id) links0
    else links0
  match person.parents with
  | [a, b] =>
    let r := getOrCreateMarriageNode allPeople generationMap [a, b] cache nodes
    let links := links ++
      [{ source := r.1.id, target := person.id, type := .marriageChild }]
    let links := [a, b].foldl
      (fun ls parentId =>
        if parentId ∈ peopleIds then
          ls ++ [{ source := parentId, target := r.1.id, type := .parentMarriage }]
        else ls)
      links
    (r.2.1, r.2.2, links)
  | [a] =>
    if a ∈ peopleIds then
      (cache, nodes, links ++ [{ source := a, target := person.id, type := .parentChild }])
    else (cache, nodes, links)
  | _ => (cache, nodes, links)

/-- `buildGraphData` (lines 149–249): person nodes first, then one pass
over the people creating spouse links, marriage nodes (deduplicated by
canonical key) and parent-side links. -/
def buildGraphData (allPeople : List Person) (primePersonId : Option String) :
    GraphData :=
  let peopleIds := allPeople.map Person.id
  let generationMap := calculateGenerations allPeople primePersonId
  let personNodes : List GraphNode :=
    allPeople.map (fun p => GraphNode.person (personNodeOf generationMap p))
  let r := allPeople.foldl (buildStep allPeople peopleIds generationMap)
    ([], personNodes, [])
  { nodes := r.2.1, links := r.2.2 }

/-- The ids of the marriage nodes of a node list, in order. -/
def marriageIds (nodes : List GraphNode) : List String :=
  nodes.filterMap (fun n =>
    match n with
    | .marriage mn => some mn.id
    | .person _ => none)

/-! ## Example inputs

Concrete datasets used by the claim theorems, their witnesses and their
counterexamples. -/

/-- The spec's example scenario: spouses A and B with child C. -/
def exampleABC : List Person :=
  [ { id := "A", spouses := ["B"] },
    { id := "B", spouses := ["A"] },
    { id := "C", parents := ["A", "B"] } ]

/-- B is recorded both as child and as spouse of A: the spousal
equalization forces equal generations for a parent-child pair. -/
def exSpouseParent : List Person :=
  [ { id := "A", spouses := ["B"] },
    { id := "B", parents := ["A"], spouses := ["A"] } ]

/-- A non-converging dataset: S and X are mutual spouses, S is pulled to
generation 1 by its parent G while X is pulled to generation 2 by its
recorded child C, so the relaxation oscillates until the pass cap and
leaves the mutual spouses on different generations. -/
def exOscillator : List Person :=
  [ { id := "G" },
    { id := "D1", parents := ["G"] },
    { id := "D2", parents := ["D1"] },
    { id := "C", parents := ["D2"] },
    { id := "S", parents := ["G"], spouses := ["X"] },
    { id := "X", spouses := ["S"], children := ["C"] } ]

/-- Only B (the lexicographically greater id) lists A as spouse: the
`P.id < S.id` guard then emits no spouse link at all. -/
def exOneSidedSpouse : List Person :=
  [ { id := "A" },
    { id := "B", spouses := ["A"] } ]

/-- Hyphenated parent ids: the sorted pairs (a-b, c) and (a, b-c) are
distinct but share the canonical key `marriage-a-b-c`. -/
def exHyphenIds : List Person :=
  [ { id := "c1", parents := ["a-b", "c"] },
    { id := "c2", parents := ["a", "b-c"] } ]

/-- Parents at generations -1 and -2 (established through recorded
children): their mean -1.5 exercises the rounding of ties. -/
def exNegativeMean : List Person :=
  [ { id := "a" },
    { id := "p", children := ["a"] },
    { id := "q", children := ["p"] },
    { id := "c", parents := ["p", "q"] } ]

/-- No explicit anchor; the fallback anchor is the first person x, whose
parent p ends up on a smaller raw generation, so normalization shifts x
away from 0. -/
def exChainParents : List Person :=
  [ { id := "x", parents := ["p"] },
    { id := "p", parents := ["g"], children := ["x"] } ]

/-! ## Derived views of the graph builder (proved equal to it below) -/

/-- The links contributed by one person in the link-building pass,
independent of the marriage cache (the cache only affects node identity
sharing, never the emitted link endpoints). -/
def personLinks (peopleIds : List String) (person : Person) : List GraphLink :=
  (if person.spouses.length > 0 then
      person.spouses.foldl (spouseLinksStep peopleIds person.id) []
    else []) ++
  match person.parents with
  | [a, b] =>
    ({ source := marriageKey (sortStrings [a, b]), target := person.id,
        type := .marriageChild } : GraphLink) ::
      ((if a ∈ peopleIds then
          [({ source := a, target := marriageKey (sortStrings [a, b]),
              type := .parentMarriage } : GraphLink)]
        else []) ++
        (if b ∈ peopleIds then
          [({ source := b, target := marriageKey (sortStrings [a, b]),
              type := .parentMarriage } : GraphLink)]
        else []))
  | [a] =>
    if a ∈ peopleIds then
      [{ source := a, target := person.id, type := .parentChild }]
    else []
  | _ => []

/-- The canonical marriage keys of all two-parent people, in input
order, with repetitions. -/
def marriageKeysOf (people : List Person) : List String :=
  (people.filter (fun p => p.parents.length = 2)).map
    (fun p => marriageKey (sortStrings p.parents))

/-- Recognizer for a spouse-spouse link between `a` and `b`, in either
orientation. -/
def spousePairPred (a b : String) (l : GraphLink) : Bool :=
  decide (l.type = LinkType.spouseSpouse ∧
    ((l.source = a ∧ l.target = b) ∨ (l.source = b ∧ l.target = a)))

/-! ## Rule-C-free comparison solver (for claim C10)

Modelled from the claim: the same solver with Rule 3 (child → parent,
which reads only the optional `children` arrays) removed. -/

/-- `processPerson` without Rule 3. -/
def processPersonNoRuleC (peopleIds : List String) (st : GenMap × Bool)
    (person : Person) : GenMap × Bool :=
  let st1 := rule1 peopleIds person.id person.spouses (st.1, getNum st.1 person.id, st.2)
  let st2 := rule2 person.id person.parents st1
  (st2.1, st2.2.2)

/-- One pass of the Rule-C-free solver. -/
def runPassNoRuleC (peopleIds : List String) (allPeople : List Person) (m : GenMap) :
    GenMap × Bool :=
  allPeople.foldl (processPersonNoRuleC peopleIds) (m, false)

/-- The relaxation loop of the Rule-C-free solver. -/
def runLoopNoRuleC (peopleIds : List String) (allPeople : List Person) :
    Nat → GenMap → GenMap
  | 0, m => m
  | fuel + 1, m =>
    let p := runPassNoRuleC peopleIds allPeople m
    if p.2 then runLoopNoRuleC peopleIds allPeople fuel p.1 else p.1

/-- The raw table of the Rule-C-free solver. -/
def solveRawNoRuleC (allPeople : List Person) (primePersonId : Option String) :
    GenMap :=
  match initialMap allPeople primePersonId with
  | some m1 => runLoopNoRuleC (allPeople.map Person.id) allPeople MAX_ITERATIONS m1
  | none => []

/-- `calculateGenerations` with Rule 3 removed. -/
def calculateGenerationsNoRuleC (allPeople : List Person)
    (primePersonId : Option String) : List (String × Int) :=
  let mF := solveRawNoRuleC allPeople primePersonId
  let shift := shiftOf allPeople primePersonId mF
  mF.map (fun e => (e.1, normalizeEntry shift e.2))

/-! ## Association-list map lemmas -/

/-- The key list of an association map. -/
def keysOf {α : Type} (m : List (String × α)) : List String :=
  m.map Prod.fst

theorem mapGet_mapSet_self {α : Type} (m : List (String × α)) (k : String) (v : α) :
    mapGet (mapSet m k v) k = some v := by
  induction m with
  | nil => simp [mapGet, mapSet]
  | cons e rest ih =>
    by_cases h : e.1 = k
    · simp [mapGet, mapSet, h]
    · simp [mapGet, mapSet, h, ih]

theorem mapGet_mapSet_ne {α : Type} (m : List (String × α)) (k k' : String) (v : α)
    (h : k' ≠ k) : mapGet (mapSet m k v) k' = mapGet m k' := by
  induction m with
  | nil =>
    simp only [mapSet, mapGet]
    rw [if_neg (Ne.symm h)]
  | cons e rest ih =>
    by_cases he : e.1 = k
    · subst he
      rw [mapSet, if_pos rfl, mapGet, mapGet, if_neg (Ne.symm h), if_neg (Ne.symm h)]
    · rw [mapSet, if_neg he, mapGet, mapGet]
      by_cases he' : e.1 = k'
      · rw [if_pos he', if_pos he']
      · rw [if_neg he', if_neg he', ih]

theorem mem_keysOf_mapSet {α : Type} (m : List (String × α)) (k k' : String) (v : α) :
    k' ∈ keysOf (mapSet m k v) ↔ k' = k ∨ k' ∈ keysOf m := by
  induction m with
  | nil => simp [keysOf, mapSet]
  | cons e rest ih =>
    by_cases he : e.1 = k
    · subst he
      rw [mapSet, if_pos rfl]
      simp only [keysOf, List.map_cons, List.mem_cons]
      tauto
    · simp only [mapSet, he, if_false, keysOf, List.map_cons, List.mem_cons]
      rw [keysOf] at ih
      rw [ih]
      tauto

theorem mapGet_isSome_iff_mem_keysOf {α : Type} (m : List (String × α)) (k : String) :
    (mapGet m k).isSome ↔ k ∈ keysOf m := by
  induction m with
  | nil => simp [mapGet, keysOf]
  | cons e rest ih =>
    by_cases he : e.1 = k
    · simp [mapGet, keysOf, he]
    · rw [mapGet, if_neg he]
      simp only [keysOf, List.map_cons, List.mem_cons]
      rw [keysOf] at ih
      rw [ih]
      constructor
      · exact Or.inr
      · rintro (h | h)
        · exact absurd h.symm he
        · exact h

theorem mapGet_eq_some_mem {α : Type} (m : List (String × α)) (k : String) (v : α)
    (h : mapGet m k = some v) : (k, v) ∈ m := by
  induction m with
  | nil => simp [mapGet] at h
  | cons e rest ih =>
    by_cases he : e.1 = k
    · rw [mapGet, if_pos he] at h
      cases e with
      | mk k0 v0 =>
        cases he
        cases Option.some.inj h
        exact List.mem_cons_self _ _
    · rw [mapGet, if_neg he] at h
      exact List.mem_cons_of_mem _ (ih h)

theorem mapGet_none_of_not_mem_keysOf {α : Type} (m : List (String × α)) (k : String)
    (h : k ∉ keysOf m) : mapGet m k = none := by
  cases hg : mapGet m k with
  | none => rfl
  | some v =>
    exact absurd ((mapGet_isSome_iff_mem_keysOf m k).1 (by simp [hg])) h

theorem mapSet_of_not_mem_keysOf {α : Type} (m : List (String × α)) (k : String) (v : α)
    (h : k ∉ keysOf m) : mapSet m k v = m ++ [(k, v)] := by
  induction m with
  | nil => simp [mapSet]
  | cons e rest ih =>
    simp only [keysOf, List.map_cons, List.mem_cons] at h
    push_neg at h
    rw [mapSet, if_neg (Ne.symm h.1), ih (by simpa [keysOf] using h.2)]
    simp

theorem mapGet_map_value {α β : Type} (f : α → β) (m : List (String × α)) (k : String) :
    mapGet (m.map (fun e => (e.1, f e.2))) k = (mapGet m k).map f := by
  induction m with
  | nil => simp [mapGet]
  | cons e rest ih =>
    by_cases he : e.1 = k
    · simp [mapGet, he]
    · simp [mapGet, he, ih]

/-! ## Shape of the relaxation rules

Every rule either leaves the state untouched or writes a known value for
the processed person's id and raises the `changed` flag. -/

theorem rule1Step_shape (ids : List String) (pid : String) (st : RuleState)
    (s : String) :
    rule1Step ids pid st s = st ∨
      ∃ x, rule1Step ids pid st s = (mapSet st.1 pid (some x), some x, true) := by
  unfold rule1Step
  split
  · cases hg : getNum st.1 s with
    | some sg =>
      by_cases hne : st.2.1 ≠ some sg
      · right
        exact ⟨sg, by simp [hg, hne]⟩
      · left
        simp [hg, hne]
    | none => left; simp [hg]
  · left; rfl

theorem rule2_shape (pid : String) (parents : List String) (st : RuleState) :
    rule2 pid parents st = st ∨
      ∃ x, rule2 pid parents st = (mapSet st.1 pid (some x), some x, true) := by
  obtain ⟨m, cg, ch⟩ := st
  by_cases hl : parents.length > 0
  · by_cases hc2 : (parentSum m parents).2 > 0
    · cases cg with
      | none =>
        right
        exact ⟨jsRound (parentSum m parents).1 (parentSum m parents).2 + 1,
          by simp [rule2, hl, hc2]⟩
      | some g =>
        by_cases hlt : jsRound (parentSum m parents).1 (parentSum m parents).2 + 1 < g
        · right
          exact ⟨jsRound (parentSum m parents).1 (parentSum m parents).2 + 1,
            by simp [rule2, hl, hc2, hlt]⟩
        · left
          simp [rule2, hl, hc2, hlt]
    · left
      simp [rule2, hl, hc2]
  · left
    simp [rule2, hl]

theorem rule3Step_shape (pid : String) (st : RuleState) (c : String) :
    rule3Step pid st c = st ∨
      ∃ x, rule3Step pid st c = (mapSet st.1 pid (some x), some x, true) := by
  unfold rule3Step
  cases hg : getNum st.1 c with
  | some cgen =>
    cases hc : st.2.1 with
    | none => right; exact ⟨cgen - 1, by simp [hc]⟩
    | some g =>
      by_cases hgt : cgen - 1 > g
      · right; exact ⟨cgen - 1, by simp [hc, hgt]⟩
      · left; simp [hc, hgt]
  | none => left; rfl

/-! ## Preservation of map predicates through the solver

A predicate on tables stable under writing known values survives every
rule, every pass and the whole loop. -/

section Preserve

variable (P : GenMap → Prop)

theorem rule1Step_preserve (hP : ∀ m k x, P m → P (mapSet m k (some x)))
    (ids : List String) (pid : String) (st : RuleState) (s : String)
    (h : P st.1) : P (rule1Step ids pid st s).1 := by
  rcases rule1Step_shape ids pid st s with he | ⟨x, he⟩ <;> rw [he]
  · exact h
  · exact hP _ _ _ h

theorem foldl_rule1Step_preserve (hP : ∀ m k x, P m → P (mapSet m k (some x)))
    (ids : List String) (pid : String) (l : List String) :
    ∀ st : RuleState, P st.1 → P (l.foldl (rule1Step ids pid) st).1 := by
  induction l with
  | nil => intro st h; exact h
  | cons s rest ih =>
    intro st h
    exact ih _ (rule1Step_preserve P hP ids pid st s h)

theorem rule1_preserve (hP : ∀ m k x, P m → P (mapSet m k (some x)))
    (ids : List String) (pid : String) (spouses : List String) (st : RuleState)
    (h : P st.1) : P (rule1 ids pid spouses st).1 := by
  unfold rule1
  split
  · exact foldl_rule1Step_preserve P hP ids pid spouses st h
  · exact h

theorem rule2_preserve (hP : ∀ m k x, P m → P (mapSet m k (some x)))
    (pid : String) (parents : List String) (st : RuleState)
    (h : P st.1) : P (rule2 pid parents st).1 := by
  rcases rule2_shape pid parents st with he | ⟨x, he⟩ <;> rw [he]
  · exact h
  · exact hP _ _ _ h

theorem rule3_preserve (hP : ∀ m k x, P m → P (mapSet m k (some x)))
    (pid : String) (childIds : List String) (st : RuleState)
    (h : P st.1) : P (rule3 pid childIds st).1 := by
  unfold rule3
  split
  · clear * - hP h
    induction childIds generalizing st with
    | nil => exact h
    | cons c rest ih =>
      refine ih _ ?_
      rcases rule3Step_shape pid st c with he | ⟨x, he⟩ <;> rw [he]
      · exact h
      · exact hP _ _ _ h
  · exact h

theorem processPerson_preserve (hP : ∀ m k x, P m → P (mapSet m k (some x)))
    (ids : List String) (st : GenMap × Bool) (p : Person)
    (h : P st.1) : P (processPerson ids st p).1 := by
  unfold processPerson
  exact rule3_preserve P hP _ _ _
    (rule2_preserve P hP _ _ _ (rule1_preserve P hP _ _ _ _ h))

theorem runPass_preserve (hP : ∀ m k x, P m → P (mapSet m k (some x)))
    (ids : List String) (people : List Person) (m : GenMap)
    (h : P m) : P (runPass ids people m).1 := by
  unfold runPass
  have : ∀ (l : List Person) (st : GenMap × Bool), P st.1 →
      P (l.foldl (processPerson ids) st).1 := by
    intro l
    induction l with
    | nil => intro st h; exact h
    | cons p rest ih =>
      intro st h
      exact ih _ (processPerson_preserve P hP ids st p h)
  exact this people (m, false) h

theorem runLoop_preserve (hP : ∀ m k x, P m → P (mapSet m k (some x)))
    (ids : List String) (people : List Person) (fuel : Nat) (m : GenMap)
    (h : P m) : P (runLoop ids people fuel m) := by
  induction fuel generalizing m with
  | zero => exact h
  | succ n ih =>
    rw [runLoop]
    split
    · exact ih _ (runPass_preserve P hP ids people m h)
    · exact runPass_preserve P hP ids people m h

end Preserve

/-- Writing a known value preserves knowledge of any key. -/
theorem known_mapSet_some (m : GenMap) (k k' : String) (x : Int)
    (h : (getNum m k).isSome) : (getNum (mapSet m k' (some x)) k).isSome := by
  by_cases he : k = k'
  · subst he
    rw [getNum, mapGet_mapSet_self]
    simp
  · rw [getNum, mapGet_mapSet_ne m k' k (some x) he]
    exact h

/-- Any write preserves key membership. -/
theorem keys_mapSet_mono {α : Type} (m : List (String × α)) (k k' : String) (v : α)
    (h : k ∈ keysOf m) : k ∈ keysOf (mapSet m k' v) :=
  (mem_keysOf_mapSet m k' k v).2 (Or.inr h)

/-- Every input person's id is a key of the initialization table. -/
theorem mem_keysOf_initFold (people : List Person) (p : Person) (hp : p ∈ people) :
    p.id ∈ keysOf (people.foldl (fun m q => mapSet m q.id none) ([] : GenMap)) := by
  have step : ∀ (l : List Person) (m : GenMap) (x : String), x ∈ keysOf m →
      x ∈ keysOf (l.foldl (fun m q => mapSet m q.id none) m) := by
    intro l
    induction l with
    | nil => intro m x h; exact h
    | cons q rest ih =>
      intro m x h
      exact ih _ _ (keys_mapSet_mono m x q.id none h)
  have main : ∀ (l : List Person) (m : GenMap), p ∈ l →
      p.id ∈ keysOf (l.foldl (fun m q => mapSet m q.id none) m) := by
    intro l
    induction l with
    | nil => intro m h; cases h
    | cons q rest ih =>
      intro m h
      rcases List.mem_cons.1 h with he | hm
      · subst he
        exact step rest _ p.id ((mem_keysOf_mapSet m p.id p.id none).2 (Or.inl rfl))
      · exact ih _ hm
  exact main people [] hp

/-! ## Coverage of the returned generation map -/

theorem anchorOf_some (people : List Person) (pid : String) :
    anchorOf people (some pid) =
      if pid ≠ "" ∧ pid ∈ people.map Person.id then some pid
      else autoAnchor people := rfl

theorem anchorOf_none (people : List Person) :
    anchorOf people none = autoAnchor people := rfl

theorem solveRaw_some_anchor (people : List Person) (pid : Option String)
    (aid : String) (h : anchorOf people pid = some aid) :
    solveRaw people pid =
      runLoop (people.map Person.id) people MAX_ITERATIONS
        (mapSet (people.foldl (fun m p => mapSet m p.id none) ([] : GenMap))
          aid (some 0)) := by
  unfold solveRaw initialMap
  rw [h]
  rfl

theorem anchorOf_isSome (people : List Person) (pid : Option String)
    (h : people ≠ []) : (anchorOf people pid).isSome := by
  have hauto : (autoAnchor people).isSome := by
    unfold autoAnchor
    split
    · rfl
    · cases people with
      | nil => exact absurd rfl h
      | cons p rest => rfl
  cases pid with
  | none => rw [anchorOf_none]; exact hauto
  | some pid =>
    rw [anchorOf_some]
    split
    · rfl
    · exact hauto

theorem anchorOf_nil (pid : Option String) : anchorOf [] pid = none := by
  cases pid with
  | none => rfl
  | some pid =>
    rw [anchorOf_some, if_neg]
    · rfl
    · intro h
      exact absurd h.2 (List.not_mem_nil pid)

theorem solveRaw_nil (pid : Option String) : solveRaw [] pid = [] := by
  unfold solveRaw initialMap
  rw [anchorOf_nil]
  rfl

theorem calculateGenerations_nil (pid : Option String) :
    calculateGenerations [] pid = [] := by
  unfold calculateGenerations
  rw [solveRaw_nil]
  rfl

theorem mem_keysOf_solveRaw (people : List Person) (pid : Option String)
    (p : Person) (hp : p ∈ people) : p.id ∈ keysOf (solveRaw people pid) := by
  have hne : people ≠ [] := by
    intro h
    subst h
    cases hp
  obtain ⟨aid, haid⟩ := Option.isSome_iff_exists.1 (anchorOf_isSome people pid hne)
  rw [solveRaw_some_anchor people pid aid haid]
  refine runLoop_preserve (fun m => p.id ∈ keysOf m) ?_ _ _ _ _ ?_
  · intro m k x h
    exact keys_mapSet_mono m p.id k (some x) h
  · exact keys_mapSet_mono _ p.id aid (some 0) (mem_keysOf_initFold people p hp)

theorem shiftOf_some (people : List Person) (pid : String) (m : GenMap) :
    shiftOf people (some pid) m =
      (if pid ≠ "" ∧ pid ∈ people.map Person.id then getNum m pid
        else none).getD (minKnownOr0 m) := rfl

theorem mapGet_calculateGenerations (people : List Person) (pid : Option String)
    (k : String) :
    mapGet (calculateGenerations people pid) k =
      (mapGet (solveRaw people pid) k).map
        (normalizeEntry (shiftOf people pid (solveRaw people pid))) := by
  unfold calculateGenerations
  exact mapGet_map_value _ _ _

/-- Claim C8: on every input — empty, dangling or malformed included —
the solver returns without error a map covering every input person's id,
and `buildGraphData` on the empty list returns empty node and link
collections.  (Absence of exceptions is expressed by the solver being a
total function of its inputs.) -/
theorem claim_C8 (pid : Option String) :
    (∀ (people : List Person), ∀ p ∈ people,
        (mapGet (calculateGenerations people pid) p.id).isSome) ∧
      calculateGenerations [] pid = [] ∧
      buildGraphData [] pid = { nodes := [], links := [] } := by
  refine ⟨?_, calculateGenerations_nil pid, rfl⟩
  intro people p hp
  obtain ⟨v, hv⟩ := Option.isSome_iff_exists.1
    ((mapGet_isSome_iff_mem_keysOf (solveRaw people pid) p.id).2
      (mem_keysOf_solveRaw people pid p hp))
  rw [mapGet_calculateGenerations, hv]
  rfl

/-- Witness for C8 at the example scenario. -/
theorem claim_C8_witness :
    (mapGet (calculateGenerations exampleABC (some "A")) "A").isSome = true := by
  have h := (claim_C8 (some "A")).1 exampleABC
    ({ id := "A", spouses := ["B"] } : Person) (by decide)
  exact h

/-! ## The explicitly anchored person normalizes to 0 -/

theorem getNum_solveRaw_isSome (people : List Person) (pid : String)
    (hne : pid ≠ "") (hmem : pid ∈ people.map Person.id) :
    (getNum (solveRaw people (some pid)) pid).isSome := by
  have ha : anchorOf people (some pid) = some pid := by
    rw [anchorOf_some, if_pos ⟨hne, hmem⟩]
  rw [solveRaw_some_anchor people (some pid) pid ha]
  refine runLoop_preserve (fun m => (getNum m pid).isSome) ?_ _ _ _ _ ?_
  · intro m k x h
    exact known_mapSet_some m pid k x h
  · simp only [getNum, mapGet_mapSet_self]
    rfl

/-- Claim C7 (amended): when the anchor id is explicitly supplied,
non-empty and resolves to a person present in the input, that person's
generation in the normalized map is exactly 0.  (The auto-selected
fallback anchor is not pinned to 0, see the counterexample.) -/
theorem claim_C7 (people : List Person) (pid : String)
    (hne : pid ≠ "") (hmem : pid ∈ people.map Person.id) :
    mapGet (calculateGenerations people (some pid)) pid = some 0 := by
  obtain ⟨g, hg⟩ := Option.isSome_iff_exists.1
    (getNum_solveRaw_isSome people pid hne hmem)
  have hmf : mapGet (solveRaw people (some pid)) pid = some (some g) :=
    Option.join_eq_some.1
      (show (mapGet (solveRaw people (some pid)) pid).join = some g from hg)
  have hshift : shiftOf people (some pid) (solveRaw people (some pid)) = g := by
    rw [shiftOf_some, if_pos ⟨hne, hmem⟩, hg]
    rfl
  rw [mapGet_calculateGenerations, hmf, hshift]
  simp [normalizeEntry]

/-- Witness for C7 at the example scenario. -/
theorem claim_C7_witness :
    mapGet (calculateGenerations exampleABC (some "A")) "A" = some 0 :=
  claim_C7 exampleABC "A" (by decide) (by decide)

/-- Counterexample for C7 as frozen: with no explicit anchor the code
picks person x as automatic anchor (no parent-free person with children
exists, so the first person wins), yet x's normalized generation is 1,
because normalization shifts by the minimum known generation rather than
by the auto-anchor's. -/
theorem claim_C7_counterexample :
    autoAnchor exChainParents = some "x" ∧
      anchorOf exChainParents none = some "x" ∧
      mapGet (calculateGenerations exChainParents none) "x" = some 1 ∧
      mapGet (calculateGenerations exChainParents none) "x" ≠ some 0 := by
  refine ⟨by decide, by decide, by decide, ?_⟩
  intro h
  rw [show mapGet (calculateGenerations exChainParents none) "x" = some 1 from by decide] at h
  cases h

/-! ## Fixed points of the relaxation pass

When a full pass reports no change, the pass was the identity and each
rule's firing condition fails for every person; this extracts the local
constraints that hold at convergence. -/

theorem rule1Step_flag_mono (ids : List String) (pid : String) (st : RuleState)
    (s : String) (h : st.2.2 = true) : (rule1Step ids pid st s).2.2 = true := by
  rcases rule1Step_shape ids pid st s with he | ⟨x, he⟩ <;> rw [he]
  exact h

theorem foldl_rule1Step_flag_mono (ids : List String) (pid : String)
    (l : List String) : ∀ st : RuleState, st.2.2 = true →
      (l.foldl (rule1Step ids pid) st).2.2 = true := by
  induction l with
  | nil => intro st h; exact h
  | cons s rest ih =>
    intro st h
    exact ih _ (rule1Step_flag_mono ids pid st s h)

theorem foldl_rule1Step_false (ids : List String) (pid : String) (l : List String) :
    ∀ st : RuleState, (l.foldl (rule1Step ids pid) st).2.2 = false →
      l.foldl (rule1Step ids pid) st = st ∧ ∀ s ∈ l, rule1Step ids pid st s = st := by
  induction l with
  | nil =>
    intro st _
    exact ⟨rfl, by intro s h; cases h⟩
  | cons s rest ih =>
    intro st h
    rw [List.foldl_cons] at h
    have hst1 : (rule1Step ids pid st s).2.2 = false := by
      by_contra hb
      rw [foldl_rule1Step_flag_mono ids pid rest _ (Bool.ne_false_iff.1 hb)] at h
      exact Bool.noConfusion h
    have hid : rule1Step ids pid st s = st := by
      rcases rule1Step_shape ids pid st s with he | ⟨x, he⟩
      · exact he
      · rw [he] at hst1; cases hst1
    rw [hid] at h
    obtain ⟨hfold, hall⟩ := ih st h
    refine ⟨by rw [List.foldl_cons, hid, hfold], ?_⟩
    intro s' hs'
    rcases List.mem_cons.1 hs' with he | hm
    · subst he; exact hid
    · exact hall s' hm

theorem rule1_flag_mono (ids : List String) (pid : String) (spouses : List String)
    (st : RuleState) (h : st.2.2 = true) : (rule1 ids pid spouses st).2.2 = true := by
  unfold rule1
  split
  · exact foldl_rule1Step_flag_mono ids pid spouses st h
  · exact h

theorem rule1_false (ids : List String) (pid : String) (spouses : List String)
    (st : RuleState) (h : (rule1 ids pid spouses st).2.2 = false) :
    rule1 ids pid spouses st = st ∧ ∀ s ∈ spouses, rule1Step ids pid st s = st := by
  unfold rule1 at h ⊢
  by_cases hl : spouses.length > 0
  · rw [if_pos hl] at h ⊢
    exact foldl_rule1Step_false ids pid spouses st h
  · rw [if_neg hl]
    have : spouses = [] := List.length_eq_zero.1 (Nat.eq_zero_of_not_pos hl)
    subst this
    exact ⟨rfl, by intro s hs; cases hs⟩

theorem rule2_flag_mono (pid : String) (parents : List String) (st : RuleState)
    (h : st.2.2 = true) : (rule2 pid parents st).2.2 = true := by
  rcases rule2_shape pid parents st with he | ⟨x, he⟩ <;> rw [he]
  exact h

theorem rule2_false (pid : String) (parents : List String) (st : RuleState)
    (h : (rule2 pid parents st).2.2 = false) : rule2 pid parents st = st := by
  rcases rule2_shape pid parents st with he | ⟨x, he⟩
  · exact he
  · rw [he] at h; cases h

theorem rule3Step_flag_mono (pid : String) (st : RuleState) (c : String)
    (h : st.2.2 = true) : (rule3Step pid st c).2.2 = true := by
  rcases rule3Step_shape pid st c with he | ⟨x, he⟩ <;> rw [he]
  exact h

theorem foldl_rule3Step_flag_mono (pid : String) (l : List String) :
    ∀ st : RuleState, st.2.2 = true → (l.foldl (rule3Step pid) st).2.2 = true := by
  induction l with
  | nil => intro st h; exact h
  | cons c rest ih =>
    intro st h
    exact ih _ (rule3Step_flag_mono pid st c h)

theorem rule3_flag_mono (pid : String) (childIds : List String) (st : RuleState)
    (h : st.2.2 = true) : (rule3 pid childIds st).2.2 = true := by
  unfold rule3
  split
  · exact foldl_rule3Step_flag_mono pid childIds st h
  · exact h

theorem foldl_rule3Step_false (pid : String) (l : List String) :
    ∀ st : RuleState, (l.foldl (rule3Step pid) st).2.2 = false →
      l.foldl (rule3Step pid) st = st := by
  induction l with
  | nil => intro st _; rfl
  | cons c rest ih =>
    intro st h
    rw [List.foldl_cons] at h
    have hst1 : (rule3Step pid st c).2.2 = false := by
      by_contra hb
      rw [foldl_rule3Step_flag_mono pid rest _ (Bool.ne_false_iff.1 hb)] at h
      exact Bool.noConfusion h
    have hid : rule3Step pid st c = st := by
      rcases rule3Step_shape pid st c with he | ⟨x, he⟩
      · exact he
      · rw [he] at hst1; cases hst1
    rw [hid] at h
    rw [List.foldl_cons, hid, ih st h]

theorem rule3_false (pid : String) (childIds : List String) (st : RuleState)
    (h : (rule3 pid childIds st).2.2 = false) : rule3 pid childIds st = st := by
  unfold rule3 at h ⊢
  split at h
  · rw [if_pos (by assumption)]
    exact foldl_rule3Step_false pid childIds st h
  · rw [if_neg (by assumption)]

theorem processPerson_flag_mono (ids : List String) (st : GenMap × Bool)
    (p : Person) (h : st.2 = true) : (processPerson ids st p).2 = true := by
  unfold processPerson
  exact rule3_flag_mono _ _ _ (rule2_flag_mono _ _ _ (rule1_flag_mono _ _ _ _ h))

theorem processPerson_false (ids : List String) (st : GenMap × Bool) (p : Person)
    (h : (processPerson ids st p).2 = false) : processPerson ids st p = st := by
  obtain ⟨m0, flag⟩ := st
  have hst : flag = false := by
    by_contra hb
    rw [processPerson_flag_mono ids (m0, flag) p (Bool.ne_false_iff.1 hb)] at h
    exact Bool.noConfusion h
  subst hst
  have hC : (rule3 p.id p.children (rule2 p.id p.parents
      (rule1 ids p.id p.spouses (m0, getNum m0 p.id, false)))).2.2 = false := h
  have hB : (rule2 p.id p.parents
      (rule1 ids p.id p.spouses (m0, getNum m0 p.id, false))).2.2 = false := by
    by_contra hb
    rw [rule3_flag_mono _ _ _ (Bool.ne_false_iff.1 hb)] at hC
    exact Bool.noConfusion hC
  have hA : (rule1 ids p.id p.spouses (m0, getNum m0 p.id, false)).2.2 = false := by
    by_contra hb
    rw [rule2_flag_mono _ _ _ (Bool.ne_false_iff.1 hb)] at hB
    exact Bool.noConfusion hB
  have hA_id := (rule1_false _ _ _ _ hA).1
  rw [hA_id] at hB hC
  have hB_id := rule2_false _ _ _ hB
  rw [hB_id] at hC
  have hC_id := rule3_false _ _ _ hC
  show ((rule3 p.id p.children (rule2 p.id p.parents
      (rule1 ids p.id p.spouses (m0, getNum m0 p.id, false)))).1,
    (rule3 p.id p.children (rule2 p.id p.parents
      (rule1 ids p.id p.spouses (m0, getNum m0 p.id, false)))).2.2) = (m0, false)
  rw [hA_id, hB_id, hC_id]

theorem foldl_processPerson_flag_mono (ids : List String) (l : List Person) :
    ∀ st : GenMap × Bool, st.2 = true →
      (l.foldl (processPerson ids) st).2 = true := by
  induction l with
  | nil => intro st h; exact h
  | cons p rest ih =>
    intro st h
    exact ih _ (processPerson_flag_mono ids st p h)

theorem runPass_fix_elim (ids : List String) (people : List Person) (m : GenMap)
    (h : runPass ids people m = (m, false)) :
    ∀ p ∈ people, processPerson ids (m, false) p = (m, false) := by
  unfold runPass at h
  have main : ∀ (l : List Person) (st : GenMap × Bool),
      (l.foldl (processPerson ids) st).2 = false →
      l.foldl (processPerson ids) st = st ∧ ∀ p ∈ l, processPerson ids st p = st := by
    intro l
    induction l with
    | nil => intro st _; exact ⟨rfl, by intro p h; cases h⟩
    | cons p rest ih =>
      intro st hf
      rw [List.foldl_cons] at hf
      have hst1 : (processPerson ids st p).2 = false := by
        by_contra hb
        rw [foldl_processPerson_flag_mono ids rest _ (Bool.ne_false_iff.1 hb)] at hf
        exact Bool.noConfusion hf
      have hid := processPerson_false ids st p hst1
      rw [hid] at hf
      obtain ⟨hfold, hall⟩ := ih st hf
      refine ⟨by rw [List.foldl_cons, hid, hfold], ?_⟩
      intro q hq
      rcases List.mem_cons.1 hq with he | hm
      · subst he; exact hid
      · exact hall q hm
  have := (main people (m, false) (by rw [h])).2
  exact this

/-- At a fixed point, a person whose rule-1 scan sees a known spouse
generation must already carry that generation. -/
theorem rule1Step_no_fire (ids : List String) (pid : String) (m : GenMap)
    (cg : Option Int) (s : String)
    (h : rule1Step ids pid (m, cg, false) s = (m, cg, false))
    (hin : s ∈ ids) (g : Int) (hg : getNum m s = some g) : cg = some g := by
  by_contra hb
  rw [rule1Step, if_pos hin] at h
  simp only [hg] at h
  rw [if_pos hb] at h
  have := congrArg (fun st : RuleState => st.2.2) h
  simp at this

/-- At a fixed point, a person with at least one known parent carries a
known generation bounded by the rule-2 implied child generation. -/
theorem rule2_no_fire (pid : String) (parents : List String) (m : GenMap)
    (cg : Option Int)
    (h : (rule2 pid parents (m, cg, false)).2.2 = false)
    (hc : 0 < (parentSum m parents).2) :
    ∃ g, cg = some g ∧
      g ≤ jsRound (parentSum m parents).1 (parentSum m parents).2 + 1 := by
  have hl : parents.length > 0 := by
    cases hp : parents with
    | nil => rw [hp] at hc; simp [parentSum] at hc
    | cons a rest => simp
  cases hcg : cg with
  | none =>
    rw [hcg] at h
    have hfire : rule2 pid parents (m, none, false)
        = (mapSet m pid
            (some (jsRound (parentSum m parents).1 (parentSum m parents).2 + 1)),
          some (jsRound (parentSum m parents).1 (parentSum m parents).2 + 1),
          true) := by
      simp [rule2, hl, hc]
    rw [hfire] at h
    exact Bool.noConfusion h
  | some g =>
    refine ⟨g, rfl, ?_⟩
    by_contra hb
    have hlt : jsRound (parentSum m parents).1 (parentSum m parents).2 + 1 < g := by
      omega
    rw [hcg] at h
    have hfire : rule2 pid parents (m, some g, false)
        = (mapSet m pid
            (some (jsRound (parentSum m parents).1 (parentSum m parents).2 + 1)),
          some (jsRound (parentSum m parents).1 (parentSum m parents).2 + 1),
          true) := by
      simp [rule2, hl, hc, hlt]
    rw [hfire] at h
    exact Bool.noConfusion h

theorem processPerson_stage_flags (ids : List String) (p : Person) (m : GenMap)
    (h : processPerson ids (m, false) p = (m, false)) :
    (rule1 ids p.id p.spouses (m, getNum m p.id, false)).2.2 = false ∧
      (rule2 p.id p.parents
        (rule1 ids p.id p.spouses (m, getNum m p.id, false))).2.2 = false := by
  have hC : (rule3 p.id p.children (rule2 p.id p.parents
      (rule1 ids p.id p.spouses (m, getNum m p.id, false)))).2.2 = false := by
    have := congrArg Prod.snd h
    exact this
  have hB : (rule2 p.id p.parents
      (rule1 ids p.id p.spouses (m, getNum m p.id, false))).2.2 = false := by
    by_contra hb
    rw [rule3_flag_mono _ _ _ (Bool.ne_false_iff.1 hb)] at hC
    exact Bool.noConfusion hC
  have hA : (rule1 ids p.id p.spouses (m, getNum m p.id, false)).2.2 = false := by
    by_contra hb
    rw [rule2_flag_mono _ _ _ (Bool.ne_false_iff.1 hb)] at hB
    exact Bool.noConfusion hB
  exact ⟨hA, hB⟩

theorem processPerson_no_fire_rule1 (ids : List String) (p : Person) (m : GenMap)
    (h : processPerson ids (m, false) p = (m, false)) :
    ∀ s ∈ p.spouses, s ∈ ids → ∀ g, getNum m s = some g →
      getNum m p.id = some g := by
  obtain ⟨hA, _⟩ := processPerson_stage_flags ids p m h
  obtain ⟨_, hall⟩ := rule1_false ids p.id p.spouses (m, getNum m p.id, false) hA
  intro s hs hin g hg
  exact rule1Step_no_fire ids p.id m (getNum m p.id) s (hall s hs) hin g hg

theorem processPerson_no_fire_rule2 (ids : List String) (p : Person) (m : GenMap)
    (h : processPerson ids (m, false) p = (m, false))
    (hcnt : 0 < (parentSum m p.parents).2) :
    ∃ g, getNum m p.id = some g ∧
      g ≤ jsRound (parentSum m p.parents).1 (parentSum m p.parents).2 + 1 := by
  obtain ⟨hA, hB⟩ := processPerson_stage_flags ids p m h
  rw [(rule1_false ids p.id p.spouses (m, getNum m p.id, false) hA).1] at hB
  exact rule2_no_fire p.id p.parents m (getNum m p.id) hB hcnt

/-- Claim C2 (amended): the strict parent-before-child ordering fails on
the code (see the counterexample); what the relaxation guarantees at a
fixed point is the rule-2 bound: every person with at least one
known-generation parent carries a known raw generation at most
`round(mean of known parent generations) + 1`, and the returned map holds
that value shifted by the normalization offset. -/
theorem claim_C2 (people : List Person) (pid : Option String) (c : Person)
    (hfix : runPass (people.map Person.id) people (solveRaw people pid)
      = (solveRaw people pid, false))
    (hc : c ∈ people)
    (hcnt : 0 < (parentSum (solveRaw people pid) c.parents).2) :
    ∃ g, getNum (solveRaw people pid) c.id = some g ∧
      g ≤ jsRound (parentSum (solveRaw people pid) c.parents).1
          (parentSum (solveRaw people pid) c.parents).2 + 1 ∧
      mapGet (calculateGenerations people pid) c.id
        = some (g - shiftOf people pid (solveRaw people pid)) := by
  obtain ⟨g, hg, hle⟩ := processPerson_no_fire_rule2 (people.map Person.id) c
    (solveRaw people pid)
    (runPass_fix_elim (people.map Person.id) people (solveRaw people pid) hfix c hc)
    hcnt
  refine ⟨g, hg, hle, ?_⟩
  have hmf : mapGet (solveRaw people pid) c.id = some (some g) :=
    Option.join_eq_some.1
      (show (mapGet (solveRaw people pid) c.id).join = some g from hg)
  rw [mapGet_calculateGenerations, hmf]
  rfl

/-- Witness for the amended C2 at the example scenario, instantiated at
the two-parent child C. -/
theorem claim_C2_witness :
    ∃ g, getNum (solveRaw exampleABC (some "A")) "C" = some g ∧
      g ≤ jsRound (parentSum (solveRaw exampleABC (some "A")) ["A", "B"]).1
          (parentSum (solveRaw exampleABC (some "A")) ["A", "B"]).2 + 1 ∧
      mapGet (calculateGenerations exampleABC (some "A")) "C"
        = some (g - shiftOf exampleABC (some "A") (solveRaw exampleABC (some "A"))) :=
  claim_C2 exampleABC (some "A") { id := "C", parents := ["A", "B"] }
    (by decide) (by decide) (by decide)

/-- Counterexample for C2 as frozen: in `exSpouseParent`, A is a recorded
parent of B and both resolve, yet both end at generation 0, so the
parent's generation is not strictly less than the child's. -/
theorem claim_C2_counterexample :
    (∃ pb ∈ exSpouseParent, pb.id = "B" ∧ "A" ∈ pb.parents) ∧
      (∃ pa ∈ exSpouseParent, pa.id = "A") ∧
      mapGet (calculateGenerations exSpouseParent (some "A")) "A" = some 0 ∧
      mapGet (calculateGenerations exSpouseParent (some "A")) "B" = some 0 ∧
      ¬ ((0 : Int) < 0) := by decide

/-- Claim C3 (amended): when the relaxation reaches a fixed point (a full
pass without change, rather than stopping at the 200-pass cap), any two
people who list each other as spouses receive equal generations in the
returned map. -/
theorem claim_C3 (people : List Person) (pid : Option String) (a b : Person)
    (hfix : runPass (people.map Person.id) people (solveRaw people pid)
      = (solveRaw people pid, false))
    (ha : a ∈ people) (hb : b ∈ people)
    (hab : b.id ∈ a.spouses) (hba : a.id ∈ b.spouses) :
    mapGet (calculateGenerations people pid) a.id
      = mapGet (calculateGenerations people pid) b.id := by
  have hfa := runPass_fix_elim (people.map Person.id) people (solveRaw people pid)
    hfix a ha
  have hfb := runPass_fix_elim (people.map Person.id) people (solveRaw people pid)
    hfix b hb
  have haid : a.id ∈ people.map Person.id := List.mem_map_of_mem Person.id ha
  have hbid : b.id ∈ people.map Person.id := List.mem_map_of_mem Person.id hb
  obtain ⟨va, hva⟩ := Option.isSome_iff_exists.1
    ((mapGet_isSome_iff_mem_keysOf _ _).2 (mem_keysOf_solveRaw people pid a ha))
  obtain ⟨vb, hvb⟩ := Option.isSome_iff_exists.1
    ((mapGet_isSome_iff_mem_keysOf _ _).2 (mem_keysOf_solveRaw people pid b hb))
  have hga : getNum (solveRaw people pid) a.id = va := by
    rw [getNum, hva]
    rfl
  have hgb : getNum (solveRaw people pid) b.id = vb := by
    rw [getNum, hvb]
    rfl
  rw [mapGet_calculateGenerations, mapGet_calculateGenerations, hva, hvb]
  cases hvb2 : vb with
  | some g =>
    have hadopt : getNum (solveRaw people pid) a.id = some g :=
      processPerson_no_fire_rule1 (people.map Person.id) a (solveRaw people pid)
        hfa b.id hab hbid g (by rw [hgb, hvb2])
    rw [hga] at hadopt
    rw [hadopt]
  | none =>
    cases hva2 : va with
    | some g =>
      have hadopt : getNum (solveRaw people pid) b.id = some g :=
        processPerson_no_fire_rule1 (people.map Person.id) b (solveRaw people pid)
          hfb a.id hba haid g (by rw [hga, hva2])
      rw [hgb, hvb2] at hadopt
      exact Option.noConfusion hadopt
    | none => rfl

/-- Witness for the amended C3 at the example scenario (mutual spouses
A and B). -/
theorem claim_C3_witness :
    mapGet (calculateGenerations exampleABC (some "A")) "A"
      = mapGet (calculateGenerations exampleABC (some "A")) "B" :=
  claim_C3 exampleABC (some "A")
    { id := "A", spouses := ["B"] } { id := "B", spouses := ["A"] }
    (by decide) (by decide) (by decide) (by decide) (by decide)

set_option maxRecDepth 40000 in
/-- Counterexample for C3 as frozen: in `exOscillator` the relaxation
never converges, the loop stops at the 200-pass cap, and the mutual
spouses S and X end at generations 1 and 2 in the returned map. -/
theorem claim_C3_counterexample :
    (∃ ps ∈ exOscillator, ps.id = "S" ∧ "X" ∈ ps.spouses) ∧
      (∃ px ∈ exOscillator, px.id = "X" ∧ "S" ∈ px.spouses) ∧
      calculateGenerations exOscillator (some "G")
        = [("G", 0), ("D1", 1), ("D2", 2), ("C", 3), ("S", 1), ("X", 2)] ∧
      (1 : Int) ≠ 2 := by decide

/-! ## Claims C1, C6 and C10 -/

/-- Claim C1: on the example scenario with anchor A, the generations are
A ↦ 0, B ↦ 0, C ↦ 1, the nodes include the marriage node
`marriage-A-B` at generation 0, and the links are exactly the
spouse-spouse link (A, B), the marriage-child link to C and the two
parent-marriage links. -/
theorem claim_C1 :
    calculateGenerations exampleABC (some "A") = [("A", 0), ("B", 0), ("C", 1)] ∧
      GraphNode.marriage
          { id := "marriage-A-B", spouses := ["A", "B"], generation := 0 }
        ∈ (buildGraphData exampleABC (some "A")).nodes ∧
      (buildGraphData exampleABC (some "A")).links =
        [ { source := "A", target := "B", type := .spouseSpouse },
          { source := "marriage-A-B", target := "C", type := .marriageChild },
          { source := "A", target := "marriage-A-B", type := .parentMarriage },
          { source := "B", target := "marriage-A-B", type := .parentMarriage } ] := by
  decide

/-- Claim C6 (amended): `Math.round` rounds a half-way mean toward
positive infinity, not away from zero: `jsRound` is characterized by
`2c·q ≤ 2s + c < 2c·q + 2c`, the ties -3/2 and 3/2 round to -1 and 2,
and on `exNegativeMean` the child of parents at -1 and -2 lands on
generation 0 (mean -1.5 rounded to -1, plus 1).  All generation values
are integers by construction. -/
theorem claim_C6 :
    (∀ (s : Int) (c : Nat), 0 < c →
        2 * (c : Int) * jsRound s c ≤ 2 * s + c ∧
          2 * s + c < 2 * (c : Int) * jsRound s c + 2 * c) ∧
      jsRound (-3) 2 = -1 ∧ jsRound 3 2 = 2 ∧
      mapGet (calculateGenerations exNegativeMean (some "a")) "c" = some 0 := by
  refine ⟨?_, by decide, by decide, by decide⟩
  intro s c hc
  have h2c : (0 : Int) < 2 * (c : Int) := by omega
  rw [jsRound, Int.fdiv_eq_ediv _ (le_of_lt h2c)]
  have hmod1 : 0 ≤ (2 * s + (c : Int)) % (2 * (c : Int)) :=
    Int.emod_nonneg _ (ne_of_gt h2c)
  have hmod2 : (2 * s + (c : Int)) % (2 * (c : Int)) < 2 * (c : Int) :=
    Int.emod_lt_of_pos _ h2c
  have hdiv := Int.ediv_add_emod (2 * s + (c : Int)) (2 * (c : Int))
  omega

/-- Witness for the amended C6 at the tie `s = -3, c = 2`. -/
theorem claim_C6_witness :
    2 * (2 : Int) * jsRound (-3) 2 ≤ 2 * (-3) + 2 ∧
      2 * (-3) + 2 < 2 * (2 : Int) * jsRound (-3) 2 + 2 * 2 :=
  claim_C6.1 (-3) 2 (by decide)

/-- Counterexample for C6 as frozen: on `exNegativeMean` the known
parents of c sit at -1 and -2; rounding the mean -1.5 away from zero
would put c at -2 + 1 = -1, but the code returns 0. -/
theorem claim_C6_counterexample :
    mapGet (calculateGenerations exNegativeMean (some "a")) "p" = some (-1) ∧
      mapGet (calculateGenerations exNegativeMean (some "a")) "q" = some (-2) ∧
      mapGet (calculateGenerations exNegativeMean (some "a")) "c" = some 0 ∧
      (-2 : Int) + 1 ≠ 0 := by decide

theorem rule3_nil (pid : String) (st : RuleState) : rule3 pid [] st = st := rfl

theorem processPerson_no_children (ids : List String) (st : GenMap × Bool)
    (p : Person) (h : p.children = []) :
    processPerson ids st p = processPersonNoRuleC ids st p := by
  unfold processPerson processPersonNoRuleC
  rw [h]
  rfl

theorem runPass_no_children (ids : List String) (people : List Person) (m : GenMap)
    (h : ∀ p ∈ people, p.children = []) :
    runPass ids people m = runPassNoRuleC ids people m := by
  unfold runPass runPassNoRuleC
  have main : ∀ (l : List Person) (st : GenMap × Bool), (∀ p ∈ l, p.children = []) →
      l.foldl (processPerson ids) st = l.foldl (processPersonNoRuleC ids) st := by
    intro l
    induction l with
    | nil => intro st _; rfl
    | cons p rest ih =>
      intro st hl
      rw [List.foldl_cons, List.foldl_cons,
        processPerson_no_children ids st p (hl p (List.mem_cons_self p rest))]
      exact ih _ (fun q hq => hl q (List.mem_cons_of_mem p hq))
  exact main people (m, false) h

theorem runLoop_no_children (ids : List String) (people : List Person)
    (h : ∀ p ∈ people, p.children = []) (fuel : Nat) (m : GenMap) :
    runLoop ids people fuel m = runLoopNoRuleC ids people fuel m := by
  induction fuel generalizing m with
  | zero => rfl
  | succ n ih =>
    rw [runLoop, runLoopNoRuleC, runPass_no_children ids people m h]
    split
    · exact ih _
    · rfl

/-- Claim C10: Rule C reads only the optional `children` arrays, never
the inverse of other records' `parents` arrays — on any input in which no
person has a non-empty `children` array, the solver computes exactly what
the Rule-C-free solver computes, so Rule C never fires and no parent's
generation is ever raised from a child's value. -/
theorem claim_C10 (people : List Person) (pid : Option String)
    (h : ∀ p ∈ people, p.children = []) :
    calculateGenerations people pid = calculateGenerationsNoRuleC people pid := by
  have hraw : solveRaw people pid = solveRawNoRuleC people pid := by
    unfold solveRaw solveRawNoRuleC
    cases hm : initialMap people pid with
    | none => rfl
    | some m1 => exact runLoop_no_children (people.map Person.id) people h _ m1
  unfold calculateGenerations calculateGenerationsNoRuleC
  rw [hraw]

/-- Witness for C10 at the example scenario (all `children` arrays are
absent there). -/
theorem claim_C10_witness :
    calculateGenerations exampleABC (some "A")
      = calculateGenerationsNoRuleC exampleABC (some "A") :=
  claim_C10 exampleABC (some "A") (by decide)

/-! ## The string order underlying the spouse-link guard and `sort` -/

theorem charToNat_inj (a b : Char) (h : a.toNat = b.toNat) : a = b :=
  Char.ext (UInt32.ext h)

theorem charListLt_asymm : ∀ (a b : List Char),
    charListLt a b = true → charListLt b a = false := by
  intro a
  induction a with
  | nil =>
    intro b h
    cases b with
    | nil => cases h
    | cons y ys => rfl
  | cons x xs ih =>
    intro b h
    cases b with
    | nil => cases h
    | cons y ys =>
      rw [charListLt] at h ⊢
      by_cases h1 : x.toNat < y.toNat
      · rw [if_neg (by omega), if_pos h1]
      · rw [if_neg h1] at h
        by_cases h2 : y.toNat < x.toNat
        · rw [if_pos h2] at h
          cases h
        · rw [if_neg h2] at h
          rw [if_neg h2, if_neg h1]
          exact ih ys h

theorem charListLt_eq_of_not_lt : ∀ (a b : List Char),
    charListLt a b = false → charListLt b a = false → a = b := by
  intro a
  induction a with
  | nil =>
    intro b h1 h2
    cases b with
    | nil => rfl
    | cons y ys => cases h1
  | cons x xs ih =>
    intro b h1 h2
    cases b with
    | nil => cases h2
    | cons y ys =>
      rw [charListLt] at h1 h2
      by_cases hxy : x.toNat < y.toNat
      · rw [if_pos hxy] at h1
        cases h1
      · by_cases hyx : y.toNat < x.toNat
        · rw [if_pos hyx] at h2
          cases h2
        · rw [if_neg hxy, if_neg hyx] at h1
          rw [if_neg hyx, if_neg hxy] at h2
          have hx : x = y := charToNat_inj x y (by omega)
          rw [hx, ih ys h1 h2]

theorem jsStrLt_asymm (a b : String) (h : jsStrLt a b = true) :
    jsStrLt b a = false :=
  charListLt_asymm a.data b.data h

theorem jsStrLt_eq_of_not_lt (a b : String) (h1 : jsStrLt a b = false)
    (h2 : jsStrLt b a = false) : a = b :=
  String.ext (charListLt_eq_of_not_lt a.data b.data h1 h2)

theorem jsStrLt_trichotomy (a b : String) (h : a ≠ b) :
    jsStrLt a b = true ∨ jsStrLt b a = true := by
  by_cases h1 : jsStrLt a b = true
  · exact Or.inl h1
  · by_cases h2 : jsStrLt b a = true
    · exact Or.inr h2
    · exact absurd
        (jsStrLt_eq_of_not_lt a b (Bool.eq_false_iff.2 h1) (Bool.eq_false_iff.2 h2)) h

theorem sortStrings_pair (x y : String) :
    sortStrings [x, y] = if jsStrLe x y then [x, y] else [y, x] := rfl

theorem sortStrings_pair_comm (x y : String) :
    sortStrings [x, y] = sortStrings [y, x] := by
  by_cases hxy : x = y
  · rw [hxy]
  · rw [sortStrings_pair, sortStrings_pair]
    rcases jsStrLt_trichotomy x y hxy with hlt | hlt
    · have h1 : jsStrLe y x = false := by rw [jsStrLe, hlt]; rfl
      have h2 : jsStrLe x y = true := by rw [jsStrLe, jsStrLt_asymm x y hlt]; rfl
      simp [h1, h2]
    · have h1 : jsStrLe x y = false := by rw [jsStrLe, hlt]; rfl
      have h2 : jsStrLe y x = true := by rw [jsStrLe, jsStrLt_asymm y x hlt]; rfl
      simp [h1, h2]

/-! ## Decomposition of the link-building pass -/

theorem mem_mapSet_elim {α : Type} (m : List (String × α)) (k : String) (v : α)
    (e : String × α) (h : e ∈ mapSet m k v) : e ∈ m ∨ e = (k, v) := by
  induction m with
  | nil =>
    simp [mapSet] at h
    exact Or.inr h
  | cons e0 rest ih =>
    by_cases he : e0.1 = k
    · rw [mapSet, if_pos he] at h
      rcases List.mem_cons.1 h with h1 | h1
      · exact Or.inr (by rw [h1])
      · exact Or.inl (List.mem_cons_of_mem _ h1)
    · rw [mapSet, if_neg he] at h
      rcases List.mem_cons.1 h with h1 | h1
      · exact Or.inl (by rw [h1]; exact List.mem_cons_self _ _)
      · rcases ih h1 with h2 | h2
        · exact Or.inl (List.mem_cons_of_mem _ h2)
        · exact Or.inr h2

theorem spouseLinksStep_eq (ids : List String) (pid : String)
    (ls : List GraphLink) (s : String) :
    spouseLinksStep ids pid ls s = ls ++ spouseLinksStep ids pid [] s := by
  unfold spouseLinksStep
  split
  · rfl
  · simp

theorem spouseLinks_fold_append (ids : List String) (pid : String) :
    ∀ (l : List String) (ls : List GraphLink),
      l.foldl (spouseLinksStep ids pid) ls
        = ls ++ l.foldl (spouseLinksStep ids pid) [] := by
  intro l
  induction l with
  | nil => intro ls; simp
  | cons s rest ih =>
    intro ls
    rw [List.foldl_cons, List.foldl_cons, ih (spouseLinksStep ids pid ls s),
      ih (spouseLinksStep ids pid [] s), spouseLinksStep_eq ids pid ls s,
      List.append_assoc]

theorem spouseLinks_fold_eq (ids : List String) (pid : String) :
    ∀ l : List String,
      l.foldl (spouseLinksStep ids pid) []
        = (l.filter (fun s => decide (s ∈ ids) && jsStrLt pid s)).map
            (fun s => { source := pid, target := s, type := .spouseSpouse }) := by
  intro l
  induction l with
  | nil => rfl
  | cons s rest ih =>
    rw [List.foldl_cons, spouseLinks_fold_append ids pid rest, ih]
    by_cases hc : s ∈ ids ∧ jsStrLt pid s = true
    · have hb : (decide (s ∈ ids) && jsStrLt pid s) = true := by
        simp [hc.1, hc.2]
      rw [List.filter_cons, if_pos hb, List.map_cons]
      unfold spouseLinksStep
      rw [if_pos hc]
      rfl
    · have hb : (decide (s ∈ ids) && jsStrLt pid s) = false := by
        rcases Decidable.not_and_iff_or_not.1 hc with h | h
        · simp [h]
        · simp [Bool.eq_false_iff.2 h]
      rw [List.filter_cons, if_neg (by simp [hb])]
      unfold spouseLinksStep
      rw [if_neg hc]
      rfl

theorem getOrCreateMarriageNode_shape (A : List Person)
    (gm : List (String × Int)) (ps : List String)
    (cache : List (String × MarriageNode)) (nodes : List GraphNode) :
    (∃ mn, mapGet cache (marriageKey (sortStrings ps)) = some mn ∧
        getOrCreateMarriageNode A gm ps cache nodes = (mn, cache, nodes)) ∨
      (mapGet cache (marriageKey (sortStrings ps)) = none ∧
        ∃ mn : MarriageNode, mn.id = marriageKey (sortStrings ps) ∧
          getOrCreateMarriageNode A gm ps cache nodes =
            (mn, mapSet cache (marriageKey (sortStrings ps)) mn,
              nodes ++ [GraphNode.marriage mn])) := by
  cases h : mapGet cache (marriageKey (sortStrings ps)) with
  | some mn =>
    left
    exact ⟨mn, rfl, by simp [getOrCreateMarriageNode, h]⟩
  | none =>
    right
    refine ⟨rfl, (getOrCreateMarriageNode A gm ps cache nodes).1, ?_, ?_⟩
    · simp [getOrCreateMarriageNode, h]
    · simp [getOrCreateMarriageNode, h]

theorem getOrCreateMarriageNode_id (A : List Person)
    (gm : List (String × Int)) (ps : List String)
    (cache : List (String × MarriageNode)) (nodes : List GraphNode)
    (hinv : ∀ e ∈ cache, (Prod.snd e).id = e.1) :
    (getOrCreateMarriageNode A gm ps cache nodes).1.id
      = marriageKey (sortStrings ps) := by
  rcases getOrCreateMarriageNode_shape A gm ps cache nodes with
    ⟨mn, hget, heq⟩ | ⟨hget, mn, hid, heq⟩
  · rw [heq]
    exact hinv (marriageKey (sortStrings ps), mn) (mapGet_eq_some_mem _ _ _ hget)
  · rw [heq]
    exact hid

theorem buildStep_links (A : List Person) (ids : List String)
    (gm : List (String × Int)) (cache : List (String × MarriageNode))
    (nodes : List GraphNode) (links : List GraphLink) (p : Person)
    (hinv : ∀ e ∈ cache, (Prod.snd e).id = e.1) :
    (buildStep A ids gm (cache, nodes, links) p).2.2
      = links ++ personLinks ids p := by
  have hsp : (if p.spouses.length > 0 then
        p.spouses.foldl (spouseLinksStep ids p.id) links
      else links)
      = links ++ (if p.spouses.length > 0 then
          p.spouses.foldl (spouseLinksStep ids p.id) []
        else []) := by
    split
    · exact spouseLinks_fold_append ids p.id p.spouses links
    · simp
  rcases hp : p.parents with _ | ⟨a, _ | ⟨b, _ | ⟨c, rest⟩⟩⟩
  · simp only [buildStep, personLinks, hp, hsp]
    simp
  · simp only [buildStep, personLinks, hp, hsp]
    by_cases hac : a ∈ ids
    · simp [hac]
    · simp [hac]
  · have hid := getOrCreateMarriageNode_id A gm [a, b] cache nodes hinv
    simp only [buildStep, personLinks, hp, hsp, hid]
    by_cases hac : a ∈ ids <;> by_cases hbc : b ∈ ids <;>
      simp [hac, hbc, hid, List.append_assoc]
  · simp only [buildStep, personLinks, hp, hsp]
    simp

theorem buildStep_cacheInv (A : List Person) (ids : List String)
    (gm : List (String × Int)) (cache : List (String × MarriageNode))
    (nodes : List GraphNode) (links : List GraphLink) (p : Person)
    (hinv : ∀ e ∈ cache, (Prod.snd e).id = e.1) :
    ∀ e ∈ (buildStep A ids gm (cache, nodes, links) p).1,
      (Prod.snd e).id = e.1 := by
  rcases hp : p.parents with _ | ⟨a, _ | ⟨b, _ | ⟨c, rest⟩⟩⟩
  · simp only [buildStep, hp]
    simpa using hinv
  · simp only [buildStep, hp]
    by_cases hac : a ∈ ids
    · simp only [if_pos hac]
      simpa using hinv
    · simp only [if_neg hac]
      simpa using hinv
  · rcases getOrCreateMarriageNode_shape A gm [a, b] cache nodes with
      ⟨mn, hget, heq⟩ | ⟨hget, mn, hid, heq⟩
    · simp only [buildStep, hp, heq]
      simpa using hinv
    · simp only [buildStep, hp, heq]
      intro e he
      rcases mem_mapSet_elim cache (marriageKey (sortStrings [a, b])) mn e he with
        h1 | h1
      · exact hinv e h1
      · rw [h1]
        exact hid
  · simp only [buildStep, hp]
    simpa using hinv

theorem buildFold_links (A : List Person) (ids : List String)
    (gm : List (String × Int)) :
    ∀ (l : List Person) (cache : List (String × MarriageNode))
      (nodes : List GraphNode) (links : List GraphLink),
      (∀ e ∈ cache, (Prod.snd e).id = e.1) →
      (l.foldl (buildStep A ids gm) (cache, nodes, links)).2.2
        = links ++ l.flatMap (personLinks ids) := by
  intro l
  induction l with
  | nil =>
    intro cache nodes links _
    simp
  | cons p rest ih =>
    intro cache nodes links hinv
    rw [List.foldl_cons]
    have heta : buildStep A ids gm (cache, nodes, links) p
        = ((buildStep A ids gm (cache, nodes, links) p).1,
          (buildStep A ids gm (cache, nodes, links) p).2.1,
          (buildStep A ids gm (cache, nodes, links) p).2.2) := rfl
    rw [heta, ih _ _ _ (buildStep_cacheInv A ids gm cache nodes links p hinv),
      buildStep_links A ids gm cache nodes links p hinv, List.flatMap_cons,
      List.append_assoc]

theorem buildGraphData_links (people : List Person) (pid : Option String) :
    (buildGraphData people pid).links
      = people.flatMap (personLinks (people.map Person.id)) := by
  unfold buildGraphData
  exact buildFold_links people (people.map Person.id)
    (calculateGenerations people pid) people [] _ [] (by intro e he; cases he)

/-! ## Content of the produced node list -/

theorem mem_marriageIds (nodes : List GraphNode) (k : String) :
    k ∈ marriageIds nodes ↔
      ∃ mn : MarriageNode, GraphNode.marriage mn ∈ nodes ∧ mn.id = k := by
  unfold marriageIds
  rw [List.mem_filterMap]
  constructor
  · rintro ⟨n, hn, hf⟩
    cases n with
    | person fn => cases hf
    | marriage mn => exact ⟨mn, hn, Option.some.inj hf⟩
  · rintro ⟨mn, hn, hk⟩
    exact ⟨GraphNode.marriage mn, hn, by simp [hk]⟩

theorem marriageIds_append (n1 n2 : List GraphNode) :
    marriageIds (n1 ++ n2) = marriageIds n1 ++ marriageIds n2 := by
  unfold marriageIds
  exact List.filterMap_append n1 n2 _

theorem marriageIds_map_person (l : List Person) (f : Person → FamilyTreeNode) :
    marriageIds (l.map (fun p => GraphNode.person (f p))) = [] := by
  induction l with
  | nil => rfl
  | cons p rest ih =>
    simpa [marriageIds, List.filterMap_cons] using ih

theorem marriageKeysOf_nil : marriageKeysOf [] = [] := rfl

theorem marriageKeysOf_cons_two (p : Person) (l : List Person) (a b : String)
    (hp : p.parents = [a, b]) :
    marriageKeysOf (p :: l)
      = marriageKey (sortStrings [a, b]) :: marriageKeysOf l := by
  unfold marriageKeysOf
  rw [List.filter_cons, if_pos (by simp [hp]), List.map_cons, hp]

theorem marriageKeysOf_cons_other (p : Person) (l : List Person)
    (hp : p.parents.length ≠ 2) :
    marriageKeysOf (p :: l) = marriageKeysOf l := by
  unfold marriageKeysOf
  rw [List.filter_cons, if_neg (by simp [hp])]

theorem buildStep_state (A : List Person) (ids : List String)
    (gm : List (String × Int)) (cache : List (String × MarriageNode))
    (nodes : List GraphNode) (links : List GraphLink) (p : Person)
    (hinv : ∀ e ∈ cache, (Prod.snd e).id = e.1)
    (hmn : marriageIds nodes = keysOf cache)
    (hnd : (keysOf cache).Nodup) :
    marriageIds (buildStep A ids gm (cache, nodes, links) p).2.1
        = keysOf (buildStep A ids gm (cache, nodes, links) p).1 ∧
      (keysOf (buildStep A ids gm (cache, nodes, links) p).1).Nodup ∧
      (∀ k, k ∈ keysOf (buildStep A ids gm (cache, nodes, links) p).1 ↔
        (k ∈ keysOf cache ∨ k ∈ marriageKeysOf [p])) ∧
      (∀ n ∈ nodes, n ∈ (buildStep A ids gm (cache, nodes, links) p).2.1) := by
  rcases hp : p.parents with _ | ⟨a, _ | ⟨b, _ | ⟨c, rest⟩⟩⟩
  · rw [marriageKeysOf_cons_other p [] (by rw [hp]; simp), marriageKeysOf_nil]
    simp only [buildStep, hp]
    exact ⟨hmn, hnd, by simp, by intro n hn; exact hn⟩
  · rw [marriageKeysOf_cons_other p [] (by rw [hp]; simp), marriageKeysOf_nil]
    simp only [buildStep, hp]
    by_cases hac : a ∈ ids
    · simp only [if_pos hac]
      exact ⟨hmn, hnd, by simp, by intro n hn; exact hn⟩
    · simp only [if_neg hac]
      exact ⟨hmn, hnd, by simp, by intro n hn; exact hn⟩
  · rw [marriageKeysOf_cons_two p [] a b hp, marriageKeysOf_nil]
    rcases getOrCreateMarriageNode_shape A gm [a, b] cache nodes with
      ⟨mn, hget, heq⟩ | ⟨hget, mn, hid, heq⟩
    · have hkmem : marriageKey (sortStrings [a, b]) ∈ keysOf cache :=
        (mapGet_isSome_iff_mem_keysOf cache _).1 (by rw [hget]; rfl)
      simp only [buildStep, hp, heq]
      refine ⟨hmn, hnd, ?_, by intro n hn; exact hn⟩
      intro k
      constructor
      · exact fun h => Or.inl h
      · rintro (h | h)
        · exact h
        · rcases List.mem_cons.1 h with h1 | h1
          · rw [h1]; exact hkmem
          · cases h1
    · have hknot : marriageKey (sortStrings [a, b]) ∉ keysOf cache := by
        intro hmem
        have hs := (mapGet_isSome_iff_mem_keysOf cache _).2 hmem
        rw [hget] at hs
        exact Bool.noConfusion hs
      have hset := mapSet_of_not_mem_keysOf cache (marriageKey (sortStrings [a, b]))
        mn hknot
      simp only [buildStep, hp, heq, hset]
      refine ⟨?_, ?_, ?_, ?_⟩
      · rw [marriageIds_append, hmn]
        unfold keysOf
        rw [List.map_append]
        simp [marriageIds, hid]
      · unfold keysOf
        rw [List.map_append]
        rw [List.nodup_append]
        refine ⟨hnd, by simp, ?_⟩
        intro x hx hy
        simp at hy
        rw [hy] at hx
        exact hknot hx
      · intro k
        unfold keysOf
        rw [List.map_append]
        simp only [List.mem_append, List.mem_cons]
        constructor
        · rintro (h | h)
          · exact Or.inl h
          · simp at h
            exact Or.inr (by simp [h])
        · rintro (h | h)
          · exact Or.inl h
          · simp at h
            exact Or.inr (by simp [h])
      · intro n hn
        exact List.mem_append_left _ hn
  · rw [marriageKeysOf_cons_other p [] (by rw [hp]; simp), marriageKeysOf_nil]
    simp only [buildStep, hp]
    exact ⟨hmn, hnd, by simp, by intro n hn; exact hn⟩

theorem buildFold_marriage (A : List Person) (ids : List String)
    (gm : List (String × Int)) :
    ∀ (l : List Person) (cache : List (String × MarriageNode))
      (nodes : List GraphNode) (links : List GraphLink),
      (∀ e ∈ cache, (Prod.snd e).id = e.1) →
      marriageIds nodes = keysOf cache →
      (keysOf cache).Nodup →
      marriageIds (l.foldl (buildStep A ids gm) (cache, nodes, links)).2.1
          = keysOf (l.foldl (buildStep A ids gm) (cache, nodes, links)).1 ∧
        (keysOf (l.foldl (buildStep A ids gm) (cache, nodes, links)).1).Nodup ∧
        (∀ k, k ∈ keysOf (l.foldl (buildStep A ids gm) (cache, nodes, links)).1 ↔
          (k ∈ keysOf cache ∨ k ∈ marriageKeysOf l)) ∧
        (∀ n ∈ nodes, n ∈ (l.foldl (buildStep A ids gm) (cache, nodes, links)).2.1) := by
  intro l
  induction l with
  | nil =>
    intro cache nodes links _ hmn hnd
    refine ⟨hmn, hnd, ?_, by intro n hn; exact hn⟩
    intro k
    rw [marriageKeysOf_nil]
    simp
  | cons p rest ih =>
    intro cache nodes links hinv hmn hnd
    obtain ⟨smn, snd, skeys, snodes⟩ :=
      buildStep_state A ids gm cache nodes links p hinv hmn hnd
    have hinv' := buildStep_cacheInv A ids gm cache nodes links p hinv
    rw [List.foldl_cons]
    have heta : buildStep A ids gm (cache, nodes, links) p
        = ((buildStep A ids gm (cache, nodes, links) p).1,
          (buildStep A ids gm (cache, nodes, links) p).2.1,
          (buildStep A ids gm (cache, nodes, links) p).2.2) := rfl
    rw [heta] at smn snd skeys snodes ⊢
    obtain ⟨rmn, rnd, rkeys, rnodes⟩ := ih _ _ _ hinv' smn snd
    refine ⟨rmn, rnd, ?_, ?_⟩
    · intro k
      rw [rkeys k]
      constructor
      · rintro (h | h)
        · rcases (skeys k).1 h with h1 | h1
          · exact Or.inl h1
          · right
            rcases hq : p.parents with _ | ⟨a, _ | ⟨b, _ | ⟨c, prest⟩⟩⟩
            · rw [marriageKeysOf_cons_other p [] (by rw [hq]; simp),
                marriageKeysOf_nil] at h1
              cases h1
            · rw [marriageKeysOf_cons_other p [] (by rw [hq]; simp),
                marriageKeysOf_nil] at h1
              cases h1
            · rw [marriageKeysOf_cons_two p [] a b hq] at h1
              rw [marriageKeysOf_cons_two p rest a b hq]
              rcases List.mem_cons.1 h1 with h2 | h2
              · rw [h2]
                exact List.mem_cons_self _ _
              · cases h2
            · rw [marriageKeysOf_cons_other p [] (by rw [hq]; simp),
                marriageKeysOf_nil] at h1
              cases h1
        · right
          rcases hq : p.parents with _ | ⟨a, _ | ⟨b, _ | ⟨c, prest⟩⟩⟩
          · rw [marriageKeysOf_cons_other p rest (by rw [hq]; simp)]
            exact h
          · rw [marriageKeysOf_cons_other p rest (by rw [hq]; simp)]
            exact h
          · rw [marriageKeysOf_cons_two p rest a b hq]
            exact List.mem_cons_of_mem _ h
          · rw [marriageKeysOf_cons_other p rest (by rw [hq]; simp)]
            exact h
      · rintro (h | h)
        · exact Or.inl ((skeys k).2 (Or.inl h))
        · rcases hq : p.parents with _ | ⟨a, _ | ⟨b, _ | ⟨c, prest⟩⟩⟩
          · rw [marriageKeysOf_cons_other p rest (by rw [hq]; simp)] at h
            exact Or.inr h
          · rw [marriageKeysOf_cons_other p rest (by rw [hq]; simp)] at h
            exact Or.inr h
          · rw [marriageKeysOf_cons_two p rest a b hq] at h
            rcases List.mem_cons.1 h with h2 | h2
            · refine Or.inl ((skeys k).2 (Or.inr ?_))
              rw [marriageKeysOf_cons_two p [] a b hq, h2]
              exact List.mem_cons_self _ _
            · exact Or.inr h2
          · rw [marriageKeysOf_cons_other p rest (by rw [hq]; simp)] at h
            exact Or.inr h
    · intro n hn
      exact rnodes n (snodes n hn)

theorem buildGraphData_nodes (people : List Person) (pid : Option String) :
    (∀ k, k ∈ marriageIds (buildGraphData people pid).nodes ↔
        k ∈ marriageKeysOf people) ∧
      (marriageIds (buildGraphData people pid).nodes).Nodup ∧
      (∀ p ∈ people,
        GraphNode.person (personNodeOf (calculateGenerations people pid) p)
          ∈ (buildGraphData people pid).nodes) := by
  obtain ⟨hmn, hnd, hkeys, hnodes⟩ :=
    buildFold_marriage people (people.map Person.id)
      (calculateGenerations people pid) people []
      (people.map (fun p =>
        GraphNode.person (personNodeOf (calculateGenerations people pid) p))) []
      (by intro e he; cases he)
      (by rw [marriageIds_map_person]; rfl)
      List.nodup_nil
  have hbgd : (buildGraphData people pid).nodes
      = (people.foldl
          (buildStep people (people.map Person.id)
            (calculateGenerations people pid))
          ([], people.map (fun p =>
            GraphNode.person (personNodeOf (calculateGenerations people pid) p)),
            [])).2.1 := rfl
  refine ⟨?_, ?_, ?_⟩
  · intro k
    rw [hbgd, hmn, hkeys k]
    simp [keysOf]
  · rw [hbgd, hmn]
    exact hnd
  · intro p hp
    rw [hbgd]
    exact hnodes _ (List.mem_map_of_mem _ hp)

theorem mem_marriageKeysOf (people : List Person) (p : Person) (a b : String)
    (hp : p ∈ people) (hq : p.parents = [a, b]) :
    marriageKey (sortStrings [a, b]) ∈ marriageKeysOf people := by
  unfold marriageKeysOf
  refine List.mem_map.2 ⟨p, List.mem_filter.2 ⟨hp, by simp [hq]⟩, by rw [hq]⟩

/-- Every marriage-child link in the output comes from a two-parent
person: its target is that person's id and its source the canonical key
of the person's sorted parents. -/
theorem marriageChild_link_shape (people : List Person) (pid : Option String)
    (l : GraphLink) (hl : l ∈ (buildGraphData people pid).links)
    (ht : l.type = LinkType.marriageChild) :
    ∃ p ∈ people, ∃ a b, p.parents = [a, b] ∧ l.target = p.id ∧
      l.source = marriageKey (sortStrings [a, b]) := by
  rw [buildGraphData_links] at hl
  obtain ⟨p, hp, hpl⟩ := List.mem_flatMap.1 hl
  refine ⟨p, hp, ?_⟩
  unfold personLinks at hpl
  rcases List.mem_append.1 hpl with hsp | hpar
  · exfalso
    by_cases hsl : p.spouses.length > 0
    · rw [if_pos hsl, spouseLinks_fold_eq] at hsp
      obtain ⟨s, _, hleq⟩ := List.mem_map.1 hsp
      rw [← hleq] at ht
      cases ht
    · rw [if_neg hsl] at hsp
      cases hsp
  · rcases hq : p.parents with _ | ⟨a, _ | ⟨b, _ | ⟨c, prest⟩⟩⟩ <;> rw [hq] at hpar
    · exact absurd hpar (List.not_mem_nil l)
    · have hpar1 : l ∈ (if a ∈ (people.map Person.id) then
          [({ source := a, target := p.id, type := .parentChild } : GraphLink)]
        else []) := hpar
      by_cases hac : a ∈ (people.map Person.id)
      · rw [if_pos hac] at hpar1
        rcases List.mem_cons.1 hpar1 with h1 | h1
        · rw [h1] at ht
          cases ht
        · cases h1
      · rw [if_neg hac] at hpar1
        cases hpar1
    · rcases List.mem_cons.1 hpar with h1 | h1
      · exact ⟨a, b, rfl, by rw [h1], by rw [h1]⟩
      · exfalso
        rcases List.mem_append.1 h1 with h2 | h2
        · by_cases hac : a ∈ (people.map Person.id)
          · rw [if_pos hac] at h2
            rcases List.mem_cons.1 h2 with h3 | h3
            · rw [h3] at ht
              cases ht
            · cases h3
          · rw [if_neg hac] at h2
            cases h2
        · by_cases hbc : b ∈ (people.map Person.id)
          · rw [if_pos hbc] at h2
            rcases List.mem_cons.1 h2 with h3 | h3
            · rw [h3] at ht
              cases ht
            · cases h3
          · rw [if_neg hbc] at h2
            cases h2
    · exact absurd hpar (List.not_mem_nil l)

/-- Claim C9: referential completeness — every link returned by
`buildGraphData` has both endpoints among the ids of the returned
nodes. -/
theorem claim_C9 (people : List Person) (pid : Option String) (l : GraphLink)
    (hl : l ∈ (buildGraphData people pid).links) :
    (∃ n ∈ (buildGraphData people pid).nodes, nodeId n = l.source) ∧
      (∃ n ∈ (buildGraphData people pid).nodes, nodeId n = l.target) := by
  obtain ⟨hmem_iff, _, hperson⟩ := buildGraphData_nodes people pid
  have hid_node : ∀ s, s ∈ people.map Person.id →
      ∃ n ∈ (buildGraphData people pid).nodes, nodeId n = s := by
    intro s hs
    obtain ⟨q, hq, hqs⟩ := List.mem_map.1 hs
    exact ⟨GraphNode.person (personNodeOf (calculateGenerations people pid) q),
      hperson q hq, by simp [nodeId, personNodeOf, hqs]⟩
  have hkey_node : ∀ k, k ∈ marriageKeysOf people →
      ∃ n ∈ (buildGraphData people pid).nodes, nodeId n = k := by
    intro k hk
    obtain ⟨mn, hmn, hmnid⟩ := (mem_marriageIds _ _).1 ((hmem_iff k).2 hk)
    exact ⟨GraphNode.marriage mn, hmn, hmnid⟩
  rw [buildGraphData_links] at hl
  obtain ⟨p, hp, hpl⟩ := List.mem_flatMap.1 hl
  have hp_node : ∃ n ∈ (buildGraphData people pid).nodes, nodeId n = p.id :=
    hid_node p.id (List.mem_map_of_mem Person.id hp)
  unfold personLinks at hpl
  rcases List.mem_append.1 hpl with hsp | hpar
  · by_cases hsl : p.spouses.length > 0
    · rw [if_pos hsl, spouseLinks_fold_eq] at hsp
      obtain ⟨s, hsfil, hleq⟩ := List.mem_map.1 hsp
      have hsin : s ∈ people.map Person.id := by
        have := (List.mem_filter.1 hsfil).2
        simp only [Bool.and_eq_true, decide_eq_true_eq] at this
        exact this.1
      rw [← hleq]
      exact ⟨hp_node, hid_node s hsin⟩
    · rw [if_neg hsl] at hsp
      cases hsp
  · rcases hq : p.parents with _ | ⟨a, _ | ⟨b, _ | ⟨c, prest⟩⟩⟩ <;> rw [hq] at hpar
    · exact absurd hpar (List.not_mem_nil l)
    · have hpar1 : l ∈ (if a ∈ (people.map Person.id) then
          [({ source := a, target := p.id, type := .parentChild } : GraphLink)]
        else []) := hpar
      by_cases hac : a ∈ (people.map Person.id)
      · rw [if_pos hac] at hpar1
        rcases List.mem_cons.1 hpar1 with h1 | h1
        · rw [h1]
          exact ⟨hid_node a hac, hp_node⟩
        · cases h1
      · rw [if_neg hac] at hpar1
        cases hpar1
    · have hkeymem : marriageKey (sortStrings [a, b]) ∈ marriageKeysOf people :=
        mem_marriageKeysOf people p a b hp hq
      rcases List.mem_cons.1 hpar with h1 | h1
      · rw [h1]
        exact ⟨hkey_node _ hkeymem, hp_node⟩
      · rcases List.mem_append.1 h1 with h2 | h2
        · by_cases hac : a ∈ (people.map Person.id)
          · rw [if_pos hac] at h2
            rcases List.mem_cons.1 h2 with h3 | h3
            · rw [h3]
              exact ⟨hid_node a hac, hkey_node _ hkeymem⟩
            · cases h3
          · rw [if_neg hac] at h2
            cases h2
        · by_cases hbc : b ∈ (people.map Person.id)
          · rw [if_pos hbc] at h2
            rcases List.mem_cons.1 h2 with h3 | h3
            · rw [h3]
              exact ⟨hid_node b hbc, hkey_node _ hkeymem⟩
            · cases h3
          · rw [if_neg hbc] at h2
            cases h2
    · exact absurd hpar (List.not_mem_nil l)

/-- Witness for C9 at the example scenario's spouse link. -/
theorem claim_C9_witness :
    (∃ n ∈ (buildGraphData exampleABC (some "A")).nodes, nodeId n = "A") ∧
      (∃ n ∈ (buildGraphData exampleABC (some "A")).nodes, nodeId n = "B") :=
  claim_C9 exampleABC (some "A")
    { source := "A", target := "B", type := .spouseSpouse } (by decide)

/-- Claim C5 (amended): the number of distinct marriage nodes equals the
number of distinct canonical keys (sorted parent ids joined with "-")
over the two-parent people — not the number of distinct sorted parent-id
pairs, which can exceed it when ids contain hyphens (see the
counterexample) — and, under the id-uniqueness contract, any two children
whose parents arrays hold the same two ids in either order receive their
marriage-child links from the identical marriage node id. -/
theorem claim_C5 (people : List Person) (pid : Option String) :
    (marriageIds (buildGraphData people pid).nodes).length
        = (marriageKeysOf people).dedup.length ∧
      (∀ (c1 c2 : Person) (x y : String),
        (people.map Person.id).Nodup → c1 ∈ people → c2 ∈ people →
        c1.parents = [x, y] → (c2.parents = [x, y] ∨ c2.parents = [y, x]) →
        ∀ l1 ∈ (buildGraphData people pid).links,
        ∀ l2 ∈ (buildGraphData people pid).links,
          l1.type = LinkType.marriageChild → l2.type = LinkType.marriageChild →
          l1.target = c1.id → l2.target = c2.id → l1.source = l2.source) := by
  obtain ⟨hmem, hnd, _⟩ := buildGraphData_nodes people pid
  constructor
  · rw [← List.toFinset_card_of_nodup hnd,
      ← List.toFinset_card_of_nodup (List.nodup_dedup (marriageKeysOf people))]
    congr 1
    ext k
    simp only [List.mem_toFinset, List.mem_dedup]
    exact hmem k
  · intro c1 c2 x y hnodup hc1 hc2 hp1 hp2 l1 hl1 l2 hl2 ht1 ht2 htg1 htg2
    obtain ⟨p1, hpm1, a1, b1, hpp1, htp1, hsp1⟩ :=
      marriageChild_link_shape people pid l1 hl1 ht1
    obtain ⟨p2, hpm2, a2, b2, hpp2, htp2, hsp2⟩ :=
      marriageChild_link_shape people pid l2 hl2 ht2
    have he1 : p1 = c1 :=
      List.inj_on_of_nodup_map hnodup hpm1 hc1 (by rw [← htp1, htg1])
    have he2 : p2 = c2 :=
      List.inj_on_of_nodup_map hnodup hpm2 hc2 (by rw [← htp2, htg2])
    subst he1
    subst he2
    rw [hp1] at hpp1
    obtain ⟨hx1, hy1⟩ : x = a1 ∧ y = b1 := by
      injection hpp1 with h1 h2
      injection h2 with h2 h3
      exact ⟨h1, h2⟩
    rcases hp2 with hp2 | hp2
    · rw [hp2] at hpp2
      obtain ⟨hx2, hy2⟩ : x = a2 ∧ y = b2 := by
        injection hpp2 with h1 h2
        injection h2 with h2 h3
        exact ⟨h1, h2⟩
      rw [hsp1, hsp2, ← hx1, ← hy1, ← hx2, ← hy2]
    · rw [hp2] at hpp2
      obtain ⟨hx2, hy2⟩ : y = a2 ∧ x = b2 := by
        injection hpp2 with h1 h2
        injection h2 with h2 h3
        exact ⟨h1, h2⟩
      rw [hsp1, hsp2, ← hx1, ← hy1, ← hx2, ← hy2, sortStrings_pair_comm]

/-- Witness for the amended C5 at the example scenario: the node count
matches the distinct-key count, and the marriage-child link of child C
shares its source with itself. -/
theorem claim_C5_witness :
    (marriageIds (buildGraphData exampleABC (some "A")).nodes).length
        = (marriageKeysOf exampleABC).dedup.length ∧
      ({ source := "marriage-A-B", target := "C",
         type := LinkType.marriageChild } : GraphLink).source
        = ({ source := "marriage-A-B", target := "C",
             type := LinkType.marriageChild } : GraphLink).source :=
  ⟨(claim_C5 exampleABC (some "A")).1,
    (claim_C5 exampleABC (some "A")).2
      { id := "C", parents := ["A", "B"] } { id := "C", parents := ["A", "B"] }
      "A" "B" (by decide) (by decide) (by decide) (by decide) (Or.inl (by decide))
      { source := "marriage-A-B", target := "C", type := LinkType.marriageChild }
      (by decide)
      { source := "marriage-A-B", target := "C", type := LinkType.marriageChild }
      (by decide) (by decide) (by decide) (by decide) (by decide)⟩

/-- Counterexample for C5 as frozen: with hyphen-bearing parent ids the
two distinct sorted parent pairs (a-b, c) and (a, b-c) collide on the
canonical key `marriage-a-b-c`, so only one marriage node exists while
two distinct sorted pairs occur. -/
theorem claim_C5_counterexample :
    (marriageIds (buildGraphData exHyphenIds none).nodes).length = 1 ∧
      ((exHyphenIds.filter (fun p => p.parents.length = 2)).map
          (fun p => sortStrings p.parents)).dedup.length = 2 ∧
      (1 : Nat) ≠ 2 := by decide

/-! ## Counting spouse links (claim C4) -/

theorem countP_flatMap {α β : Type} (f : α → List β) (p : β → Bool)
    (l : List α) :
    (l.flatMap f).countP p = (l.map (fun x => (f x).countP p)).sum := by
  rw [List.flatMap_def, List.countP_flatten, List.map_map]
  rfl

theorem sum_map_eq_of_single {α : Type} (f : α → Nat) :
    ∀ (l : List α) (a : α), l.Nodup → a ∈ l → (∀ x ∈ l, x ≠ a → f x = 0) →
      (l.map f).sum = f a := by
  intro l
  induction l with
  | nil =>
    intro a _ ha _
    cases ha
  | cons x rest ih =>
    intro a hnd ha hz
    rw [List.map_cons, List.sum_cons]
    rcases List.mem_cons.1 ha with he | hm
    · subst he
      have hz' : ∀ y ∈ rest, f y = 0 := by
        intro y hy
        refine hz y (List.mem_cons_of_mem _ hy) ?_
        intro hya
        rw [hya] at hy
        exact (List.nodup_cons.1 hnd).1 hy
      have hsum : (rest.map f).sum = 0 := by
        refine List.sum_eq_zero ?_
        intro z hzm
        obtain ⟨y, hy, hyz⟩ := List.mem_map.1 hzm
        rw [← hyz]
        exact hz' y hy
      rw [hsum]
      omega
    · have hxa : x ≠ a := by
        intro hxa
        rw [hxa] at hnd
        exact (List.nodup_cons.1 hnd).1 hm
      rw [hz x (List.mem_cons_self _ _) hxa,
        ih a (List.nodup_cons.1 hnd).2 hm
          (fun y hy hya => hz y (List.mem_cons_of_mem _ hy) hya)]
      omega

theorem sum_map_eq_of_pair {α : Type} (f : α → Nat) :
    ∀ (l : List α) (a b : α), a ≠ b → l.Nodup → a ∈ l → b ∈ l →
      (∀ x ∈ l, x ≠ a → x ≠ b → f x = 0) → (l.map f).sum = f a + f b := by
  intro l
  induction l with
  | nil =>
    intro a b _ _ ha _ _
    cases ha
  | cons x rest ih =>
    intro a b hne hnd ha hb hz
    rw [List.map_cons, List.sum_cons]
    rcases List.mem_cons.1 ha with hea | hma
    · subst hea
      have hbm : b ∈ rest := by
        rcases List.mem_cons.1 hb with heb | hmb
        · exact absurd heb.symm hne
        · exact hmb
      rw [sum_map_eq_of_single f rest b (List.nodup_cons.1 hnd).2 hbm ?_]
      intro y hy hyb
      refine hz y (List.mem_cons_of_mem _ hy) ?_ hyb
      intro hya
      rw [hya] at hy
      exact (List.nodup_cons.1 hnd).1 hy
    · rcases List.mem_cons.1 hb with heb | hmb
      · subst heb
        have ham : a ∈ rest := hma
        rw [sum_map_eq_of_single f rest a (List.nodup_cons.1 hnd).2 ham ?_]
        · omega
        · intro y hy hya
          refine hz y (List.mem_cons_of_mem _ hy) hya ?_
          intro hyb
          rw [hyb] at hy
          exact (List.nodup_cons.1 hnd).1 hy
      · have hxa : x ≠ a := by
          intro hxa
          rw [hxa] at hnd
          exact (List.nodup_cons.1 hnd).1 hma
        have hxb : x ≠ b := by
          intro hxb
          rw [hxb] at hnd
          exact (List.nodup_cons.1 hnd).1 hmb
        rw [hz x (List.mem_cons_self _ _) hxa hxb,
          ih a b hne (List.nodup_cons.1 hnd).2 hma hmb
            (fun y hy hya hyb => hz y (List.mem_cons_of_mem _ hy) hya hyb)]
        omega

theorem countP_non_spouse_zero (a b : String) (L : List GraphLink)
    (hL : ∀ l ∈ L, l.type ≠ LinkType.spouseSpouse) :
    L.countP (spousePairPred a b) = 0 := by
  refine List.countP_eq_zero.2 ?_
  intro l hl
  unfold spousePairPred
  simp only [decide_eq_true_eq]
  rintro ⟨h, _⟩
  exact hL l hl h

theorem countP_personLinks (ids : List String) (p : Person) (a b : String) :
    (personLinks ids p).countP (spousePairPred a b)
      = (p.spouses.filter (fun s => decide (s ∈ ids) && jsStrLt p.id s)).countP
          (fun s => spousePairPred a b
            { source := p.id, target := s, type := .spouseSpouse }) := by
  unfold personLinks
  rw [List.countP_append]
  have hsp : (if p.spouses.length > 0 then
        p.spouses.foldl (spouseLinksStep ids p.id) []
      else [])
      = (p.spouses.filter (fun s => decide (s ∈ ids) && jsStrLt p.id s)).map
          (fun s => ({ source := p.id, target := s,
                       type := .spouseSpouse } : GraphLink)) := by
    split
    · exact spouseLinks_fold_eq ids p.id p.spouses
    · next hsl =>
      have : p.spouses = [] :=
        List.length_eq_zero.1 (Nat.eq_zero_of_not_pos hsl)
      rw [this]
      rfl
  rw [hsp, List.countP_map]
  have hpar : (match p.parents with
      | [a0, b0] =>
        ({ source := marriageKey (sortStrings [a0, b0]), target := p.id,
           type := .marriageChild } : GraphLink) ::
          ((if a0 ∈ ids then
              [({ source := a0, target := marriageKey (sortStrings [a0, b0]),
                  type := .parentMarriage } : GraphLink)]
            else []) ++
            (if b0 ∈ ids then
              [({ source := b0, target := marriageKey (sortStrings [a0, b0]),
                  type := .parentMarriage } : GraphLink)]
            else []))
      | [a0] =>
        if a0 ∈ ids then
          [({ source := a0, target := p.id, type := .parentChild } : GraphLink)]
        else []
      | _ => []).countP (spousePairPred a b) = 0 := by
    refine countP_non_spouse_zero a b _ ?_
    intro l hl
    rcases hq : p.parents with _ | ⟨a0, _ | ⟨b0, _ | ⟨c0, prest⟩⟩⟩ <;> rw [hq] at hl
    · cases hl
    · have hl1 : l ∈ (if a0 ∈ ids then
          [({ source := a0, target := p.id, type := .parentChild } : GraphLink)]
        else []) := hl
      by_cases hac : a0 ∈ ids
      · rw [if_pos hac] at hl1
        rcases List.mem_cons.1 hl1 with h1 | h1
        · rw [h1]
          intro hc
          cases hc
        · cases h1
      · rw [if_neg hac] at hl1
        cases hl1
    · rcases List.mem_cons.1 hl with h1 | h1
      · rw [h1]
        intro hc
        cases hc
      · rcases List.mem_append.1 h1 with h2 | h2
        · by_cases hac : a0 ∈ ids
          · rw [if_pos hac] at h2
            rcases List.mem_cons.1 h2 with h3 | h3
            · rw [h3]
              intro hc
              cases hc
            · cases h3
          · rw [if_neg hac] at h2
            cases h2
        · by_cases hbc : b0 ∈ ids
          · rw [if_pos hbc] at h2
            rcases List.mem_cons.1 h2 with h3 | h3
            · rw [h3]
              intro hc
              cases hc
            · cases h3
          · rw [if_neg hbc] at h2
            cases h2
    · cases hl
  rw [hpar]
  rfl

theorem spousePairPred_comm (a b : String) (l : GraphLink) :
    spousePairPred a b l = spousePairPred b a l := by
  unfold spousePairPred
  rw [decide_eq_decide]
  tauto

theorem countP_spouse_contrib (ids : List String) (p : Person) (a b : String)
    (hpa : p.id = a) (hne : a ≠ b) (hbin : b ∈ ids) :
    (personLinks ids p).countP (spousePairPred a b)
      = if jsStrLt a b = true then p.spouses.count b else 0 := by
  rw [countP_personLinks, List.countP_filter]
  have hcong : ∀ s ∈ p.spouses,
      (spousePairPred a b
          { source := p.id, target := s, type := .spouseSpouse }
        && (decide (s ∈ ids) && jsStrLt p.id s))
      = (decide (s = b) && (decide (s ∈ ids) && jsStrLt p.id s)) := by
    intro s _
    congr 1
    unfold spousePairPred
    rw [decide_eq_decide]
    constructor
    · rintro ⟨_, (⟨_, h2⟩ | ⟨h1, _⟩)⟩
      · exact h2
      · exact absurd (hpa ▸ h1) hne
    · intro hsb
      exact ⟨rfl, Or.inl ⟨hpa, hsb⟩⟩
  rw [List.countP_congr (fun s hs => by rw [hcong s hs])]
  by_cases hlt : jsStrLt a b = true
  · rw [if_pos hlt]
    have hpt : ∀ s ∈ p.spouses,
        (decide (s = b) && (decide (s ∈ ids) && jsStrLt p.id s)) = (s == b) := by
      intro s _
      by_cases hsb : s = b
      · subst hsb
        simp [hbin, hpa, hlt]
      · simp [hsb]
    rw [List.countP_congr (fun s hs => by rw [hpt s hs]), ← List.count_eq_countP]
  · rw [if_neg hlt]
    refine List.countP_eq_zero.2 ?_
    intro s _
    simp only [Bool.and_eq_true, decide_eq_true_eq]
    rintro ⟨hsb, _, hslt⟩
    subst hsb
    exact hlt (hpa ▸ hslt)

theorem countP_spouse_contrib_zero (ids : List String) (p : Person) (a b : String)
    (hpa : p.id ≠ a) (hpb : p.id ≠ b) :
    (personLinks ids p).countP (spousePairPred a b) = 0 := by
  rw [countP_personLinks, List.countP_filter]
  refine List.countP_eq_zero.2 ?_
  intro s _
  simp only [Bool.and_eq_true]
  rintro ⟨hpred, _⟩
  unfold spousePairPred at hpred
  simp only [decide_eq_true_eq] at hpred
  rcases hpred.2 with ⟨h1, _⟩ | ⟨h1, _⟩
  · exact hpa h1
  · exact hpb h1

/-- Claim C4 (amended): one-sided spouse listings can produce no link at
all (see the counterexample); for two people who, under the
id-uniqueness contract, each list the other exactly once in their
spouses array, exactly one spouse-spouse link between them is emitted,
in either orientation. -/
theorem claim_C4 (people : List Person) (pid : Option String) (a b : Person)
    (hids : (people.map Person.id).Nodup) (ha : a ∈ people) (hb : b ∈ people)
    (hne : a.id ≠ b.id)
    (hcab : a.spouses.count b.id = 1) (hcba : b.spouses.count a.id = 1) :
    (buildGraphData people pid).links.countP (spousePairPred a.id b.id) = 1 := by
  rw [buildGraphData_links, countP_flatMap]
  have hnd : people.Nodup := List.Nodup.of_map Person.id hids
  have hane : a ≠ b := fun h => hne (congrArg Person.id h)
  rw [sum_map_eq_of_pair _ people a b hane hnd ha hb ?_]
  · have hbin : b.id ∈ people.map Person.id := List.mem_map_of_mem Person.id hb
    have hain : a.id ∈ people.map Person.id := List.mem_map_of_mem Person.id ha
    have hA := countP_spouse_contrib (people.map Person.id) a a.id b.id rfl hne hbin
    have hBpred : (personLinks (people.map Person.id) b).countP
          (spousePairPred a.id b.id)
        = (personLinks (people.map Person.id) b).countP
            (spousePairPred b.id a.id) :=
      List.countP_congr (fun l _ => by rw [spousePairPred_comm a.id b.id l])
    have hB := countP_spouse_contrib (people.map Person.id) b b.id a.id rfl
      (Ne.symm hne) hain
    rw [hA, hBpred, hB, hcab, hcba]
    rcases jsStrLt_trichotomy a.id b.id hne with hlt | hlt
    · have h2 : jsStrLt b.id a.id = false := jsStrLt_asymm _ _ hlt
      rw [if_pos hlt, if_neg (by rw [h2]; exact Bool.false_ne_true)]
    · have h2 : jsStrLt a.id b.id = false := jsStrLt_asymm _ _ hlt
      rw [if_neg (by rw [h2]; exact Bool.false_ne_true), if_pos hlt]
  · intro x hx hxa hxb
    refine countP_spouse_contrib_zero (people.map Person.id) x a.id b.id ?_ ?_
    · intro h
      exact hxa (List.inj_on_of_nodup_map hids hx ha h)
    · intro h
      exact hxb (List.inj_on_of_nodup_map hids hx hb h)

/-- Witness for the amended C4 at the example scenario. -/
theorem claim_C4_witness :
    (buildGraphData exampleABC (some "A")).links.countP
      (spousePairPred "A" "B") = 1 :=
  claim_C4 exampleABC (some "A")
    { id := "A", spouses := ["B"] } { id := "B", spouses := ["A"] }
    (by decide) (by decide) (by decide) (by decide) (by decide) (by decide)

/-- Counterexample for C4 as frozen: B (the lexicographically greater id)
lists A as spouse but A does not list B; the `P.id < S.id` guard then
emits no spouse-spouse link at all, not exactly one. -/
theorem claim_C4_counterexample :
    (∃ pb ∈ exOneSidedSpouse, pb.id = "B" ∧ "A" ∈ pb.spouses) ∧
      (∃ pa ∈ exOneSidedSpouse, pa.id = "A") ∧
      (buildGraphData exOneSidedSpouse none).links = [] := by decide

end RaktaVruksha
